import Mathlib

/-!
# corun: bounded-concurrency executor (`Run`, `RunFunc`)

The two Go functions start `n` worker goroutines that loop over `inputCh`, call
`solve` and send the outcome on `outputCh`; a control loop primes the pool, then
selects between `ctx.Done()` and `outputCh`, collects, and refills.

The embedding is an interleaving semantics.  A state holds the two buffered
channels, the worker pool, the control loop's program counter and its local
variables.  One step is one scheduler decision, named by a `Label`: a worker
takes an input, a worker finishes (calls `solve` and sends), a worker leaves its
`range` loop, the context is cancelled, or the control loop runs up to its next
channel operation.  `step` returns `none` when the chosen action is not enabled
(a blocked channel operation, or a label that does not match the program
counter).  A schedule is a list of labels; "for every completion order" is
"for every schedule".

`solve` is a function of its input.  `collect` and `fetch` are closures called
from the control loop only, so their behaviour is a function of the calls made
so far: `collect` sees the list of values it was given before, `fetch` sees the
number of earlier invocations.
-/

namespace Corun

/-- The struct `output[R]` of `Run`/`RunFunc`: a value and an error (`none` is Go's `nil`). -/
structure output (R E : Type) where
  val : R
  err : Option E
  deriving DecidableEq, Repr

/-- What a worker sends for input `x`: `val, err := solve(x); outputCh <- output{val, err}`. -/
def result {I R E : Type} (solve : I → R × Option E) (x : I) : output R E :=
  ⟨(solve x).1, (solve x).2⟩

/-- Scheduler decisions. `finish j` picks the `j`-th busy worker. -/
inductive Label where
  | cancel
  | take
  | finish (j : Nat)
  | exit
  | prime
  | selDone
  | selRecv
  | refill
  | join
  deriving DecidableEq, Repr

/-- Program counter of the control loop (the closure assigned to `err`, then `wg.Wait()`).
`prime` is the first `for`, `select` the `select` statement, `refill x` the pending
`inputCh <-` of the second loop (`x` is what the control loop holds for it: nothing in
`Run`, the fetched item in `RunFunc`), `join e` is `wg.Wait()` after the closure returned `e`
(and the deferred `close(inputCh)` ran), `ret e` is the function having returned `e`. -/
inductive Pc (P E : Type) where
  | prime
  | select
  | refill (x : P)
  | join (err : Option E)
  | ret (err : Option E)
  deriving DecidableEq, Repr

/-- Channels, worker pool and context shared by `Run` and `RunFunc`, with two history
logs: every item sent on `inputCh` and every result received from `outputCh`.
The `n` identical workers are kept as a pool: `idle` of them wait at `range inputCh`,
`busy` lists the inputs being solved, `exited` have returned (`wg.Done()`). -/
structure Core (I R E : Type) where
  inputCh : List I
  closed : Bool
  outputCh : List (output R E)
  idle : Nat
  busy : List I
  exited : Nat
  cancelled : Bool
  dispatched : List I
  received : List (output R E)
  deriving DecidableEq, Repr

section CoreOps
variable {I R E : Type}

/-- State after `make(chan ..., n)` twice and `n` times `go func() {...}`. -/
def Core.init (n : Nat) : Core I R E :=
  { inputCh := [], closed := false, outputCh := [], idle := n, busy := [], exited := 0,
    cancelled := false, dispatched := [], received := [] }

/-- The caller (or a deadline) cancels the context: `ctx.Done()` becomes ready. -/
def Core.cancel (c : Core I R E) : Option (Core I R E) :=
  if c.cancelled then none else some { c with cancelled := true }

/-- A waiting worker receives the head of `inputCh` (`for x := range inputCh`). -/
def Core.take (c : Core I R E) : Option (Core I R E) :=
  match c.idle, c.inputCh with
  | k + 1, x :: rest => some { c with idle := k, inputCh := rest, busy := c.busy ++ [x] }
  | _, _ => none

/-- The `j`-th busy worker completes `solve` and sends on `outputCh` (capacity `n`);
blocked while the buffer is full. -/
def Core.finish (n : Nat) (solve : I → R × Option E) (c : Core I R E) (j : Nat) :
    Option (Core I R E) :=
  match c.busy[j]? with
  | some x =>
    if c.outputCh.length < n then
      some { c with busy := c.busy.eraseIdx j, outputCh := c.outputCh ++ [result solve x],
                    idle := c.idle + 1 }
    else none
  | none => none

/-- A waiting worker finds `inputCh` closed and drained, leaves the loop, `wg.Done()`. -/
def Core.exit (c : Core I R E) : Option (Core I R E) :=
  match c.closed, c.inputCh, c.idle with
  | true, [], k + 1 => some { c with idle := k, exited := c.exited + 1 }
  | _, _, _ => none

/-- Control loop: `inputCh <- x` on a channel of capacity `n`; blocked while full,
and a send on a closed channel does not proceed. -/
def Core.send (n : Nat) (c : Core I R E) (x : I) : Option (Core I R E) :=
  if c.closed then none
  else if c.inputCh.length < n then
    some { c with inputCh := c.inputCh ++ [x], dispatched := c.dispatched ++ [x] }
  else none

/-- Control loop: `r := <-outputCh`; blocked while empty. -/
def Core.recv (c : Core I R E) : Option (output R E × Core I R E) :=
  match c.outputCh with
  | [] => none
  | r :: rest => some (r, { c with outputCh := rest, received := c.received ++ [r] })

/-- Control loop: the deferred `close(inputCh)`. -/
def Core.close (c : Core I R E) : Core I R E := { c with closed := true }

/-- Worker and context actions, common to both functions; `none` for control labels. -/
def Core.envStep (n : Nat) (solve : I → R × Option E) (c : Core I R E) :
    Label → Option (Core I R E)
  | .cancel => c.cancel
  | .take => c.take
  | .finish j => c.finish n solve j
  | .exit => c.exit
  | _ => none

/-- Potential of the pool: how many worker and context actions can still happen. -/
def Core.weight (c : Core I R E) : Nat :=
  3 * c.inputCh.length + 2 * c.busy.length + c.outputCh.length + (c.idle + c.busy.length)
    + (if c.cancelled then 0 else 1)

end CoreOps

/-- Number of goroutines: `if n <= 0 { n = runtime.NumCPU() }`. -/
def workerCount (n : Int) (numCPU : Nat) : Nat :=
  if n ≤ 0 then numCPU else n.toNat

/-- Runs a schedule from a state; `none` when some chosen action is not enabled. -/
def exec {S : Type} (step : S → Label → Option S) : S → List Label → Option S
  | s, [] => some s
  | s, l :: ls => (step s l).bind fun t => exec step t ls

/-- A schedule in which the context is never cancelled. -/
def NoCancel (ls : List Label) : Prop := Label.cancel ∉ ls

instance (ls : List Label) : Decidable (NoCancel ls) :=
  inferInstanceAs (Decidable (Label.cancel ∉ ls))

/-- Weight of a program counter in the termination measure. -/
def Pc.weight {P E : Type} : Pc P E → Nat
  | .prime => 3
  | .select => 2
  | .refill _ => 2
  | .join _ => 1
  | .ret _ => 0

/-- The function has returned. -/
def Pc.isRet {P E : Type} : Pc P E → Bool
  | .ret _ => true
  | _ => false

/-- The control loop has left its closure: `wg.Wait()` or returned. -/
def Pc.stopped {P E : Type} : Pc P E → Bool
  | .join _ => true
  | .ret _ => true
  | _ => false

/-- The error a stopped control loop carries. -/
def Pc.outcome {P E : Type} : Pc P E → Option (Option E)
  | .join e => some e
  | .ret e => some e
  | _ => none

/-! ## `Run` (run.go) -/

namespace Run

/-- Arguments of `Run`; `ctxErr` is the value `ctx.Err()` yields once `ctx.Done()` is
closed, `numCPU` stands for `runtime.NumCPU()`. -/
structure Cfg (I R E : Type) where
  n : Int
  numCPU : Nat
  queue : List I
  solve : I → R × Option E
  collect : List R → R → Option E
  ctxErr : E

/-- The control loop's variables `complete`, `index`, its program counter, the pool,
and the log of values handed to `collect`. -/
structure State (I R E : Type) where
  core : Core I R E
  pc : Pc Unit E
  complete : Nat
  index : Nat
  collected : List R
  deriving DecidableEq, Repr

variable {I R E : Type}

/-- Effective pool size. -/
def Cfg.workers (cfg : Cfg I R E) : Nat := workerCount cfg.n cfg.numCPU

/-- State when the closure starts: workers spawned, `complete = 0`, `index = 0`. -/
def init (cfg : Cfg I R E) : State I R E :=
  { core := Core.init cfg.workers, pc := .prime, complete := 0, index := 0, collected := [] }

/-- Executes `return err` inside the closure: deferred `close(inputCh)`, then `wg.Wait()`. -/
def State.leave (s : State I R E) (err : Option E) : State I R E :=
  { s with core := s.core.close, pc := .join err }

/-- One pass of `for ; index < n && index < len(queue); index++ { inputCh <- queue[index] }`,
or leaving that loop. -/
def prime (cfg : Cfg I R E) (s : State I R E) : Option (State I R E) :=
  match s.pc with
  | .prime =>
    if s.index < cfg.workers ∧ s.index < cfg.queue.length then
      match cfg.queue[s.index]? with
      | some x => (s.core.send cfg.workers x).map fun c => { s with core := c, index := s.index + 1 }
      | none => none
    else some { s with pc := .select }
  | _ => none

/-- The `case <-ctx.Done(): return ctx.Err()` branch of the `select`. -/
def selDone (cfg : Cfg I R E) (s : State I R E) : Option (State I R E) :=
  match s.pc with
  | .select => if s.core.cancelled then some (s.leave (some cfg.ctxErr)) else none
  | _ => none

/-- The `case r := <-outputCh:` branch of the `select`, up to the next channel operation. -/
def selRecv (cfg : Cfg I R E) (s : State I R E) : Option (State I R E) :=
  match s.pc with
  | .select =>
    match s.core.recv with
    | none => none
    | some (r, c) =>
      match r.err with
      | some e => some (State.leave { s with core := c } (some e))
      | none =>
        match cfg.collect s.collected r.val with
        | some e =>
          some (State.leave { s with core := c, collected := s.collected ++ [r.val] } (some e))
        | none =>
          if s.complete + 1 ≥ cfg.queue.length then
            some (State.leave { s with core := c, collected := s.collected ++ [r.val],
                                       complete := s.complete + 1 } none)
          else if s.index < cfg.queue.length then
            some { s with core := c, collected := s.collected ++ [r.val],
                          complete := s.complete + 1, pc := .refill () }
          else
            some { s with core := c, collected := s.collected ++ [r.val],
                          complete := s.complete + 1 }
  | _ => none

/-- The pending `inputCh <- queue[index]; index++` of the second loop. -/
def refill (cfg : Cfg I R E) (s : State I R E) : Option (State I R E) :=
  match s.pc with
  | .refill _ =>
    match cfg.queue[s.index]? with
    | some x => (s.core.send cfg.workers x).map fun c =>
        { s with core := c, index := s.index + 1, pc := .select }
    | none => none
  | _ => none

/-- The call `wg.Wait()` completes once every worker has called `wg.Done()`; then `return err`. -/
def join (cfg : Cfg I R E) (s : State I R E) : Option (State I R E) :=
  match s.pc with
  | .join e => if s.core.exited = cfg.workers then some { s with pc := .ret e } else none
  | _ => none

/-- One scheduler decision. -/
def step (cfg : Cfg I R E) (s : State I R E) : Label → Option (State I R E)
  | .prime => prime cfg s
  | .selDone => selDone cfg s
  | .selRecv => selRecv cfg s
  | .refill => refill cfg s
  | .join => join cfg s
  | l => (s.core.envStep cfg.workers cfg.solve l).map fun c => { s with core := c }

/-- Termination measure of `Run`. -/
def potential (cfg : Cfg I R E) (s : State I R E) : Nat :=
  s.pc.weight + 4 * (cfg.queue.length - s.index) + s.core.weight

end Run

/-! ## `RunFunc` (run_func.go) -/

/-- The three results of one `fetch()` call: `x, ok, err`. -/
structure Fetched (I E : Type) where
  item : I
  ok : Bool
  err : Option E
  deriving DecidableEq, Repr

namespace RunFunc

/-- Arguments of `RunFunc`. `fetch k` is what the `(k+1)`-th invocation of the closure
`fetch` returns; `ctxErr` is the value `ctx.Err()` yields once `ctx.Done()` is closed,
`numCPU` stands for `runtime.NumCPU()`. -/
structure Cfg (I R E : Type) where
  n : Int
  numCPU : Nat
  fetch : Nat → Fetched I E
  solve : I → R × Option E
  collect : List R → R → Option E
  ctxErr : E

/-- The control loop's variables `complete`, `count`, `fetched`, its program counter, the
pool, the number of `fetch` invocations made, and the log of values handed to `collect`. -/
structure State (I R E : Type) where
  core : Core I R E
  pc : Pc I E
  complete : Nat
  count : Nat
  fetched : Bool
  calls : Nat
  collected : List R
  deriving DecidableEq, Repr

variable {I R E : Type}

/-- Effective pool size. -/
def Cfg.workers (cfg : Cfg I R E) : Nat := workerCount cfg.n cfg.numCPU

/-- State when the closure starts: workers spawned, all variables zero. -/
def init (cfg : Cfg I R E) : State I R E :=
  { core := Core.init cfg.workers, pc := .prime, complete := 0, count := 0, fetched := false,
    calls := 0, collected := [] }

/-- Executes `return err` inside the closure: deferred `close(inputCh)`, then `wg.Wait()`. -/
def State.leave (s : State I R E) (err : Option E) : State I R E :=
  { s with core := s.core.close, pc := .join err }

/-- One pass of the first loop `for ; count < n; count++ { x, ok, err := fetch(); ... }`,
or leaving that loop. -/
def prime (cfg : Cfg I R E) (s : State I R E) : Option (State I R E) :=
  match s.pc with
  | .prime =>
    if s.count < cfg.workers then
      match (cfg.fetch s.calls).err with
      | some e => some (State.leave { s with calls := s.calls + 1 } (some e))
      | none =>
        if (cfg.fetch s.calls).ok then
          (s.core.send cfg.workers (cfg.fetch s.calls).item).map fun c =>
            { s with core := c, calls := s.calls + 1, count := s.count + 1 }
        else some { s with calls := s.calls + 1, fetched := true, pc := .select }
    else some { s with pc := .select }
  | _ => none

/-- The `case <-ctx.Done(): return ctx.Err()` branch of the `select`. -/
def selDone (cfg : Cfg I R E) (s : State I R E) : Option (State I R E) :=
  match s.pc with
  | .select => if s.core.cancelled then some (s.leave (some cfg.ctxErr)) else none
  | _ => none

/-- The `case r := <-outputCh:` branch of the `select`, up to the next channel operation. -/
def selRecv (cfg : Cfg I R E) (s : State I R E) : Option (State I R E) :=
  match s.pc with
  | .select =>
    match s.core.recv with
    | none => none
    | some (r, c) =>
      match r.err with
      | some e => some (State.leave { s with core := c } (some e))
      | none =>
        match cfg.collect s.collected r.val with
        | some e =>
          some (State.leave { s with core := c, collected := s.collected ++ [r.val] } (some e))
        | none =>
          if s.fetched = true ∧ s.complete + 1 ≥ s.count then
            some (State.leave { s with core := c, collected := s.collected ++ [r.val],
                                       complete := s.complete + 1 } none)
          else
            match (cfg.fetch s.calls).err with
            | some e =>
              some (State.leave { s with core := c, collected := s.collected ++ [r.val],
                                         complete := s.complete + 1, calls := s.calls + 1 }
                      (some e))
            | none =>
              if (cfg.fetch s.calls).ok then
                some { s with core := c, collected := s.collected ++ [r.val],
                              complete := s.complete + 1, calls := s.calls + 1,
                              count := s.count + 1, pc := .refill (cfg.fetch s.calls).item }
              else if s.complete + 1 ≥ s.count then
                some (State.leave { s with core := c, collected := s.collected ++ [r.val],
                                           complete := s.complete + 1, calls := s.calls + 1,
                                           fetched := true } none)
              else
                some { s with core := c, collected := s.collected ++ [r.val],
                              complete := s.complete + 1, calls := s.calls + 1,
                              fetched := true }
  | _ => none

/-- The pending `inputCh <- x` of the second loop (`count++` already done). -/
def refill (cfg : Cfg I R E) (s : State I R E) : Option (State I R E) :=
  match s.pc with
  | .refill x => (s.core.send cfg.workers x).map fun c => { s with core := c, pc := .select }
  | _ => none

/-- The call `wg.Wait()` completes once every worker has called `wg.Done()`; then `return err`. -/
def join (cfg : Cfg I R E) (s : State I R E) : Option (State I R E) :=
  match s.pc with
  | .join e => if s.core.exited = cfg.workers then some { s with pc := .ret e } else none
  | _ => none

/-- One scheduler decision. -/
def step (cfg : Cfg I R E) (s : State I R E) : Label → Option (State I R E)
  | .prime => prime cfg s
  | .selDone => selDone cfg s
  | .selRecv => selRecv cfg s
  | .refill => refill cfg s
  | .join => join cfg s
  | l => (s.core.envStep cfg.workers cfg.solve l).map fun c => { s with core := c }

end RunFunc

/-- The pull adapter over a slice used by the tests: the `(k+1)`-th call yields `queue[k]`
with `ok = true` while `k < len(queue)`, and the zero value with `ok = false` afterwards;
it never fails. -/
def sliceFetch {I E : Type} [Inhabited I] (queue : List I) (k : Nat) : Fetched I E :=
  match queue[k]? with
  | some x => ⟨x, true, none⟩
  | none => ⟨default, false, none⟩

/-- `RunFunc` arguments that feed it the queue of a `Run` call through `sliceFetch`. -/
def Run.Cfg.viaFetch {I R E : Type} [Inhabited I] (cfg : Run.Cfg I R E) : RunFunc.Cfg I R E :=
  { n := cfg.n, numCPU := cfg.numCPU, fetch := sliceFetch cfg.queue, solve := cfg.solve,
    collect := cfg.collect, ctxErr := cfg.ctxErr }

/-! ## What a caller can compare between the two functions -/

/-- Forgets what the control loop holds for a pending send. -/
def Pc.forget {P E : Type} : Pc P E → Pc Unit E
  | .prime => .prime
  | .select => .select
  | .refill _ => .refill ()
  | .join e => .join e
  | .ret e => .ret e

/-- The part of a state common to `Run` and `RunFunc`: channels, pool, context and logs
(among them the items dispatched so far), the program point with the returned error,
`complete`, and the values handed to `collect`. -/
structure View (I R E : Type) where
  core : Core I R E
  pc : Pc Unit E
  complete : Nat
  collected : List R
  deriving DecidableEq, Repr

/-- View of a `Run` state. -/
def Run.view {I R E : Type} (s : Run.State I R E) : View I R E :=
  ⟨s.core, s.pc, s.complete, s.collected⟩

/-- View of a `RunFunc` state. -/
def RunFunc.view {I R E : Type} (t : RunFunc.State I R E) : View I R E :=
  ⟨t.core, t.pc.forget, t.complete, t.collected⟩

/-! ## Invariants -/

section InvDefs
variable {I R E : Type}

/-- Invariant of channels and pool for `n` workers: every worker is in one place; the
results received, the results buffered, and the results still owed for the inputs held by
workers or buffered, are together the results of the dispatched items; a worker has only
exited from a closed and drained `inputCh`; at most `n` dispatched items have no received
result. -/
structure CoreInv (n : Nat) (solve : I → R × Option E) (c : Core I R E) : Prop where
  pool : c.idle + c.busy.length + c.exited = n
  cons : (c.received ++ c.outputCh ++ (c.busy ++ c.inputCh).map (result solve)).Perm
    (c.dispatched.map (result solve))
  drained : 0 < c.exited → c.closed = true ∧ c.inputCh = []
  bound : c.dispatched.length ≤ c.received.length + n

end InvDefs

namespace Run
variable {I R E : Type}

/-- Every result received so far was successful, was handed to `collect`, and was counted. -/
def Clean (s : State I R E) : Prop :=
  s.collected = s.core.received.map output.val ∧ (∀ r ∈ s.core.received, r.err = none) ∧
    s.complete = s.core.received.length

/-- Why the closure returned `err`: with `nil` everything received was collected and
`complete >= len(queue)`; with an error, either the context was cancelled and the error
is `ctx.Err()`, or a received result carried it, or the last call of `collect` returned it. -/
def Outcome (cfg : Cfg I R E) (s : State I R E) : Option E → Prop
  | none => Clean s ∧ cfg.queue.length ≤ s.complete
  | some e =>
    (s.core.cancelled = true ∧ e = cfg.ctxErr) ∨ (∃ r ∈ s.core.received, r.err = some e) ∨
      (∃ pre r, r ∈ s.core.received ∧ s.collected = pre ++ [r.val] ∧
        cfg.collect pre r.val = some e)

/-- What holds at each program point of the control loop. -/
def PcInv (cfg : Cfg I R E) (s : State I R E) : Prop :=
  match s.pc with
  | .prime => s.complete = 0 ∧ s.core.received = [] ∧ s.collected = [] ∧
      s.index ≤ cfg.workers ∧ s.core.closed = false
  | .select => Clean s ∧ s.core.closed = false ∧
      (s.index = cfg.queue.length ∨ s.index = s.complete + cfg.workers) ∧
      s.index ≤ s.complete + cfg.workers ∧ (s.complete < cfg.queue.length ∨ cfg.queue.length = 0)
  | .refill _ => Clean s ∧ s.core.closed = false ∧ s.index + 1 = s.complete + cfg.workers ∧
      s.index < cfg.queue.length ∧ s.complete < cfg.queue.length
  | .join e => s.core.closed = true ∧ Outcome cfg s e ∧
      s.index ≤ s.complete + cfg.workers ∧ s.complete ≤ s.core.received.length
  | .ret e => s.core.closed = true ∧ s.core.exited = cfg.workers ∧ Outcome cfg s e ∧
      s.index ≤ s.complete + cfg.workers ∧ s.complete ≤ s.core.received.length

/-- Invariant of `Run`: `index` counts the dispatched items, which are the first `index`
items of the queue, in order. -/
structure Inv (cfg : Cfg I R E) (s : State I R E) : Prop where
  core : CoreInv cfg.workers cfg.solve s.core
  idx : s.index = s.core.dispatched.length
  disp : s.core.dispatched = cfg.queue.take s.index
  pcinv : PcInv cfg s

end Run

namespace RunFunc
variable {I R E : Type}

/-- Every result received so far was successful, was handed to `collect`, and was counted. -/
def Clean (s : State I R E) : Prop :=
  s.collected = s.core.received.map output.val ∧ (∀ r ∈ s.core.received, r.err = none) ∧
    s.complete = s.core.received.length

/-- Why the closure returned `err`: with `nil` everything received was collected, `fetch`
has reported exhaustion and `complete >= count`; with an error, either the context was
cancelled and the error is `ctx.Err()`, or a received result carried it, or the last call
of `collect` returned it, or the last call of `fetch` returned it. -/
def Outcome (cfg : Cfg I R E) (s : State I R E) : Option E → Prop
  | none => Clean s ∧ s.fetched = true ∧ s.count ≤ s.complete
  | some e =>
    (s.core.cancelled = true ∧ e = cfg.ctxErr) ∨ (∃ r ∈ s.core.received, r.err = some e) ∨
      (∃ pre r, r ∈ s.core.received ∧ s.collected = pre ++ [r.val] ∧
        cfg.collect pre r.val = some e) ∨
      (∃ k, s.calls = k + 1 ∧ (cfg.fetch k).err = some e)

/-- Bounds that still hold after the closure returned. -/
def Frozen (cfg : Cfg I R E) (s : State I R E) : Prop :=
  s.count ≤ s.complete + cfg.workers ∧ s.complete ≤ s.core.received.length ∧
    s.core.dispatched.length ≤ s.count

/-- What holds at each program point of the control loop. -/
def PcInv (cfg : Cfg I R E) (s : State I R E) : Prop :=
  match s.pc with
  | .prime => s.complete = 0 ∧ s.core.received = [] ∧ s.collected = [] ∧
      s.count ≤ cfg.workers ∧ s.core.closed = false ∧ s.fetched = false ∧
      s.count = s.core.dispatched.length
  | .select => Clean s ∧ s.core.closed = false ∧ s.count = s.core.dispatched.length ∧
      s.count ≤ s.complete + cfg.workers ∧ (s.fetched = false → s.count = s.complete + cfg.workers)
  | .refill _ => Clean s ∧ s.core.closed = false ∧ s.count = s.core.dispatched.length + 1 ∧
      s.count ≤ s.complete + cfg.workers ∧ (s.fetched = false → s.count = s.complete + cfg.workers)
  | .join e => s.core.closed = true ∧ Outcome cfg s e ∧ Frozen cfg s
  | .ret e => s.core.closed = true ∧ s.core.exited = cfg.workers ∧ Outcome cfg s e ∧ Frozen cfg s

/-- Invariant of `RunFunc`. -/
structure Inv (cfg : Cfg I R E) (s : State I R E) : Prop where
  core : CoreInv cfg.workers cfg.solve s.core
  pcinv : PcInv cfg s

/-- Termination measure of `RunFunc` for a source that yields `k` items. -/
def potential (k : Nat) (s : State I R E) : Nat :=
  s.pc.weight + 4 * (k - s.core.dispatched.length) + s.core.weight

end RunFunc

/-! ## Ways of saying that a call returns -/

/-- From state `t` on, `Run` only waits for its workers and returns `e`: every schedule from
`t` has at most `potential cfg t` steps and hands nothing to `collect` and nothing to the
workers; as long as the function has not returned some step other than `cancel` is enabled;
and when it has returned, it returned `e`. -/
def Run.Settles {I R E : Type} (cfg : Run.Cfg I R E) (t : Run.State I R E) (e : Option E) :
    Prop :=
  ∀ ms u, exec (Run.step cfg) t ms = some u →
    ms.length ≤ Run.potential cfg t ∧
    u.collected = t.collected ∧ u.core.dispatched = t.core.dispatched ∧
    (u.pc.isRet = false → ∃ l, l ≠ Label.cancel ∧ (Run.step cfg u l).isSome = true) ∧
    (∀ e', u.pc = Pc.ret e' → e' = e)

/-- From state `t` on, `RunFunc` only waits for its workers and returns `e`: every schedule
from `t` has at most `potential 0 t` steps, hands nothing to `collect` and nothing to the
workers and does not call `fetch`; as long as the function has not returned some step other
than `cancel` is enabled; and when it has returned, it returned `e`. -/
def RunFunc.Settles {I R E : Type} (cfg : RunFunc.Cfg I R E) (t : RunFunc.State I R E)
    (e : Option E) : Prop :=
  ∀ ms u, exec (RunFunc.step cfg) t ms = some u →
    ms.length ≤ RunFunc.potential 0 t ∧
    u.collected = t.collected ∧ u.core.dispatched = t.core.dispatched ∧ u.calls = t.calls ∧
    (u.pc.isRet = false → ∃ l, l ≠ Label.cancel ∧ (RunFunc.step cfg u l).isSome = true) ∧
    (∀ e', u.pc = Pc.ret e' → e' = e)

/-! ## `Run` against `RunFunc` fed from the same queue -/

/-- The arguments `fcfg` of a `RunFunc` call are those of the `Run` call `cfg`, with a
`fetch` that yields `queue[0]`, `queue[1]`, ... once each with `ok = true` and no error,
and reports exhaustion (`ok = false`, no error) on every later call. -/
structure Feeds {I R E : Type} (cfg : Run.Cfg I R E) (fcfg : RunFunc.Cfg I R E) : Prop where
  n : fcfg.n = cfg.n
  numCPU : fcfg.numCPU = cfg.numCPU
  solve : fcfg.solve = cfg.solve
  collect : fcfg.collect = cfg.collect
  ctxErr : fcfg.ctxErr = cfg.ctxErr
  items : ∀ k x, cfg.queue[k]? = some x → fcfg.fetch k = ⟨x, true, none⟩
  exhausted : ∀ k, cfg.queue.length ≤ k → (fcfg.fetch k).ok = false ∧ (fcfg.fetch k).err = none

/-- Relation kept between a `Run` call and a `RunFunc` call fed from the same queue when
both follow the same schedule: same view; `count` is `index` (one ahead while a send is
pending, the pending item being `queue[index]`); `fetch` has been called `index` times as
long as it has not reported exhaustion, and `fetched` is set only when the whole queue has
been dispatched. -/
def SimRel {I R E : Type} (cfg : Run.Cfg I R E) (s : Run.State I R E)
    (t : RunFunc.State I R E) : Prop :=
  Run.view s = RunFunc.view t ∧ t.count ≤ cfg.queue.length ∧
  match t.pc with
  | .prime => t.count = s.index ∧ t.calls = s.index ∧ t.fetched = false
  | .select => t.count = s.index ∧
      ((t.fetched = false ∧ t.calls = s.index) ∨
       (t.fetched = true ∧ s.index = cfg.queue.length ∧ cfg.queue.length ≤ t.calls))
  | .refill x => t.count = s.index + 1 ∧ cfg.queue[s.index]? = some x ∧ t.fetched = false ∧
      t.calls = s.index + 1
  | .join _ => True
  | .ret _ => True

/-- Two results of one scheduler decision agree: both blocked, or both done and related. -/
def SimOut {I R E : Type} (cfg : Run.Cfg I R E) :
    Option (Run.State I R E) → Option (RunFunc.State I R E) → Prop
  | some s, some t => SimRel cfg s t
  | none, none => True
  | _, _ => False

/-! ## Calls on an empty source -/

/-- A `Run` call that has done nothing but possibly leave its first loop. -/
def Run.Parked {I R E : Type} (cfg : Run.Cfg I R E) (s : Run.State I R E) : Prop :=
  s.core = Core.init cfg.workers ∧ s.index = 0 ∧ s.collected = [] ∧
    (s.pc = Pc.prime ∨ s.pc = Pc.select)

/-- A `RunFunc` call that has done nothing but possibly call `fetch` once and leave its
first loop. -/
def RunFunc.Parked {I R E : Type} (cfg : RunFunc.Cfg I R E) (s : RunFunc.State I R E) : Prop :=
  s.core = Core.init cfg.workers ∧ s.collected = [] ∧
    ((s.pc = Pc.prime ∧ s.count = 0 ∧ s.calls = 0) ∨ (s.pc = Pc.select ∧ s.calls ≤ 1))

/-- Steps left to a parked call. -/
def parkedSteps {P E : Type} : Pc P E → Nat
  | .prime => 1
  | _ => 0

/-! ## A source that fails at its `(k+1)`-th call -/

/-- Invariant of `RunFunc` when `fetch` yields items on its first `k` calls and fails with
`e` on the next, while the context is not cancelled: the dispatched items are the fetched
ones, in order; the control loop has called `fetch` once per dispatched (or pending) item
and never saw exhaustion; and it can only have stopped with `e`, after `k + 1` calls of
`fetch` and `k` dispatched items. -/
def RunFunc.FailsAt {I R E : Type} (cfg : RunFunc.Cfg I R E) (k : Nat) (e : E)
    (s : RunFunc.State I R E) : Prop :=
  s.core.cancelled = false ∧
  s.core.dispatched = (List.range s.core.dispatched.length).map (fun j => (cfg.fetch j).item) ∧
  s.core.dispatched.length ≤ k ∧
  match s.pc with
  | .prime => s.calls = s.core.dispatched.length ∧ s.fetched = false
  | .select => s.calls = s.core.dispatched.length ∧ s.fetched = false
  | .refill x => s.calls = s.core.dispatched.length + 1 ∧ s.calls ≤ k ∧ s.fetched = false ∧
      x = (cfg.fetch s.core.dispatched.length).item
  | .join r => r = some e ∧ s.calls = k + 1 ∧ s.core.dispatched.length = k
  | .ret r => r = some e ∧ s.calls = k + 1 ∧ s.core.dispatched.length = k

/-! ## Concrete calls taken from the tests -/

/-- TestRun: inputs 1..5, two goroutines, `solve(x) = x*2`, a collector that never fails
(the values it is handed are summed from its log). -/
def testRun : Run.Cfg Nat Nat Nat :=
  { n := 2, numCPU := 8, queue := [1, 2, 3, 4, 5], solve := fun x => (x * 2, none),
    collect := fun _ _ => none, ctxErr := 99 }

/-- A schedule of `testRun` in which results arrive out of input order. -/
def testRunSchedule : List Label :=
  [.prime, .prime, .prime, .take, .take, .finish 1, .finish 0, .selRecv, .refill, .selRecv,
   .refill, .take, .take, .finish 0, .selRecv, .refill, .finish 0, .take, .finish 0,
   .selRecv, .selRecv, .exit, .exit, .join]

/-- TestRunWithError: inputs 1..3, two goroutines, `solve` fails on 2 with error 20. -/
def testRunWithError : Run.Cfg Nat Nat Nat :=
  { n := 2, numCPU := 8, queue := [1, 2, 3],
    solve := fun x => if x = 2 then (0, some 20) else (x, none),
    collect := fun _ _ => none, ctxErr := 99 }

/-- A schedule of `testRunWithError`: item 1 completes first and is collected, item 3 is
dispatched, then the failed result of item 2 is received. -/
def testRunWithErrorSchedule : List Label :=
  [.prime, .prime, .prime, .take, .take, .finish 0, .finish 0, .selRecv, .refill, .selRecv,
   .take, .finish 0, .exit, .exit, .join]

/-- A schedule of `testRunWithError` in which the context is cancelled while the failed
result of item 2 is already waiting in `outputCh`, and the `select` then takes the result. -/
def cancelThenRecvSchedule : List Label :=
  [.prime, .prime, .prime, .take, .take, .finish 1, .cancel, .selRecv, .finish 0, .exit, .exit,
   .join]

/-- A schedule of `testRun` in which the context is cancelled after the last result has
been sent, and the `select` takes the results. -/
def cancelThenFinishSchedule : List Label :=
  [.prime, .prime, .prime, .take, .take, .finish 0, .finish 0, .selRecv, .refill, .selRecv,
   .refill, .take, .take, .finish 0, .finish 0, .selRecv, .refill, .selRecv, .take, .finish 0,
   .cancel, .selRecv, .exit, .exit, .join]

/-- TestRunWithCollectError: inputs 1..3, two goroutines, `solve(x) = x`, `collect` fails on
the value 2 with error 7. -/
def testRunWithCollectError : Run.Cfg Nat Nat Nat :=
  { n := 2, numCPU := 8, queue := [1, 2, 3], solve := fun x => (x, none),
    collect := fun _ v => if v = 2 then some 7 else none, ctxErr := 99 }

/-- A schedule of `testRunWithCollectError` up to the `select` that will receive the
value 2 as second result. -/
def collectErrorSchedule : List Label :=
  [.prime, .prime, .prime, .take, .take, .finish 0, .finish 0, .selRecv, .refill]

/-- TestRunFunc_CollectError: `fetch` yields 0..4 and then reports exhaustion, three
goroutines, `solve(x) = x*2`, `collect` fails on the value 4 with error 7. -/
def testRunFuncCollectError : RunFunc.Cfg Nat Nat Nat :=
  { n := 3, numCPU := 8,
    fetch := fun k => if k < 5 then ⟨k, true, none⟩ else ⟨0, false, none⟩,
    solve := fun x => (x * 2, none),
    collect := fun _ v => if v = 4 then some 7 else none, ctxErr := 99 }

/-- A schedule of `testRunFuncCollectError` up to the `select` that will receive the
value 4 as first result. -/
def funcCollectErrorSchedule : List Label :=
  [.prime, .prime, .prime, .prime, .take, .take, .take, .finish 2]

/-- TestRunFunc_Success fed from TestRun's slice: `RunFunc` over `sliceFetch [1..5]`. -/
def testRunViaFetch : RunFunc.Cfg Nat Nat Nat := testRun.viaFetch

/-- A schedule of `testRunWithError` that stops while the closure has returned the failure
and one worker is still solving. -/
def errorPendingSchedule : List Label :=
  [.prime, .prime, .prime, .take, .take, .finish 1, .selRecv]

/-- A `Run` call on the empty queue with one goroutine. -/
def emptyRun : Run.Cfg Nat Nat Nat :=
  { n := 1, numCPU := 8, queue := [], solve := fun x => (x, none), collect := fun _ _ => none,
    ctxErr := 99 }

/-- A `RunFunc` call with one goroutine whose `fetch` reports exhaustion at once. -/
def emptyRunFunc : RunFunc.Cfg Nat Nat Nat :=
  { n := 1, numCPU := 8, fetch := fun _ => ⟨0, false, none⟩, solve := fun x => (x, none),
    collect := fun _ _ => none, ctxErr := 99 }

/-- TestRunFunc_FetchLateError: `fetch` yields 1, 2, 3 and fails on its fourth call with
error 5; three goroutines, `solve(x) = x`. -/
def testFetchLateError : RunFunc.Cfg Nat Nat Nat :=
  { n := 3, numCPU := 8,
    fetch := fun k => if k < 3 then ⟨k + 1, true, none⟩ else ⟨0, false, some 5⟩,
    solve := fun x => (x, none), collect := fun _ _ => none, ctxErr := 99 }

/-- A schedule of `testFetchLateError` to its return. -/
def fetchLateErrorSchedule : List Label :=
  [.prime, .prime, .prime, .prime, .take, .take, .finish 1, .selRecv, .take, .finish 0,
   .finish 0, .exit, .exit, .exit, .join]

/-- A `fetch` that yields 1 and 2, reports exhaustion on its third call, and would fail
with error 5 if called again; three goroutines, `solve(x) = x`. -/
def fetchErrorAfterExhaustion : RunFunc.Cfg Nat Nat Nat :=
  { n := 3, numCPU := 8,
    fetch := fun k => if k < 2 then ⟨k + 1, true, none⟩ else
      if k = 2 then ⟨0, false, none⟩ else ⟨0, false, some 5⟩,
    solve := fun x => (x, none), collect := fun _ _ => none, ctxErr := 99 }

/-- A `fetch` that yields 1 and 2, reports exhaustion on its third call, and would yield 7
if called a fourth time; three goroutines, `solve(x) = x`. -/
def fetchItemAfterExhaustion : RunFunc.Cfg Nat Nat Nat :=
  { n := 3, numCPU := 8,
    fetch := fun k => if k < 2 then ⟨k + 1, true, none⟩ else
      if k = 3 then ⟨7, true, none⟩ else ⟨0, false, none⟩,
    solve := fun x => (x, none), collect := fun _ _ => none, ctxErr := 99 }

/-- Priming until exhaustion is reported, then the first result is received. -/
def afterExhaustionSchedule : List Label :=
  [.prime, .prime, .prime, .take, .finish 0, .selRecv]

/-! ## Schedules -/

section ExecLemmas
variable {S : Type} {step : S → Label → Option S}

/-- Invariant principle for schedules. -/
theorem exec_induct (P : S → Prop) (allowed : Label → Prop)
    (hstep : ∀ s l t, P s → allowed l → step s l = some t → P t) :
    ∀ (ls : List Label) (s t : S), P s → (∀ l ∈ ls, allowed l) → exec step s ls = some t → P t := by
  intro ls
  induction ls with
  | nil =>
    intro s t hs _ h
    simp [exec] at h
    exact h ▸ hs
  | cons l ls ih =>
    intro s t hs hall h
    simp only [exec] at h
    cases hl : step s l with
    | none => simp [hl] at h
    | some u =>
      simp only [hl, Option.some_bind] at h
      exact ih u t (hstep s l u hs (hall l (List.mem_cons_self _ _)) hl)
        (fun m hm => hall m (List.mem_cons_of_mem _ hm)) h

/-- A measure that drops at every step bounds the length of every schedule. -/
theorem exec_length_le (mu : S → Nat) (P : S → Prop) (allowed : Label → Prop)
    (hP : ∀ s l t, P s → allowed l → step s l = some t → P t)
    (hmu : ∀ s l t, P s → allowed l → step s l = some t → mu t < mu s) :
    ∀ (ls : List Label) (s t : S), P s → (∀ l ∈ ls, allowed l) → exec step s ls = some t →
      ls.length + mu t ≤ mu s := by
  intro ls
  induction ls with
  | nil =>
    intro s t _ _ h
    simp [exec] at h
    simp [h]
  | cons l ls ih =>
    intro s t hs hall h
    simp only [exec] at h
    cases hl : step s l with
    | none => simp [hl] at h
    | some u =>
      simp only [hl, Option.some_bind] at h
      have hlall := hall l (List.mem_cons_self _ _)
      have h1 := ih u t (hP s l u hs hlall hl)
        (fun m hm => hall m (List.mem_cons_of_mem _ hm)) h
      have h2 := hmu s l u hs hlall hl
      simp only [List.length_cons]
      omega

end ExecLemmas

/-! ## Channels and pool -/

section CoreLemmas
variable {I R E : Type} {n : Nat} {solve : I → R × Option E}

theorem perm_cons_eraseIdx {α : Type} (l : List α) (j : Nat) (x : α) (h : l[j]? = some x) :
    l.Perm (x :: l.eraseIdx j) := by
  induction l generalizing j with
  | nil => simp at h
  | cons a l ih =>
    cases j with
    | zero =>
      simp at h
      simp [h]
    | succ j =>
      simp at h
      simp only [List.eraseIdx_cons_succ]
      exact (List.Perm.cons a (ih j h)).trans (List.Perm.swap x a _)

theorem length_eraseIdx_of_get {α : Type} (l : List α) (j : Nat) (x : α) (h : l[j]? = some x) :
    (l.eraseIdx j).length + 1 = l.length := by
  have := (perm_cons_eraseIdx l j x h).length_eq
  simp at this
  omega

theorem Core.cancel_some {c c' : Core I R E} (h : c.cancel = some c') :
    c.cancelled = false ∧ c' = { c with cancelled := true } := by
  unfold Core.cancel at h
  split at h
  · simp at h
  · simp at h
    simp_all

theorem Core.take_some {c c' : Core I R E} (h : c.take = some c') :
    ∃ k x rest, c.idle = k + 1 ∧ c.inputCh = x :: rest ∧
      c' = { c with idle := k, inputCh := rest, busy := c.busy ++ [x] } := by
  unfold Core.take at h
  split at h
  · rename_i k x rest hk hx
    simp at h
    exact ⟨k, x, rest, hk, hx, h.symm⟩
  · simp at h

theorem Core.finish_some {c c' : Core I R E} {j : Nat} (h : c.finish n solve j = some c') :
    ∃ x, c.busy[j]? = some x ∧ c.outputCh.length < n ∧
      c' = { c with busy := c.busy.eraseIdx j, outputCh := c.outputCh ++ [result solve x],
                    idle := c.idle + 1 } := by
  unfold Core.finish at h
  split at h
  · rename_i x hx
    split at h
    · rename_i hlt
      simp at h
      exact ⟨x, hx, hlt, h.symm⟩
    · simp at h
  · simp at h

theorem Core.exit_some {c c' : Core I R E} (h : c.exit = some c') :
    ∃ k, c.closed = true ∧ c.inputCh = [] ∧ c.idle = k + 1 ∧
      c' = { c with idle := k, exited := c.exited + 1 } := by
  unfold Core.exit at h
  split at h
  · rename_i k hc hi hk
    simp at h
    exact ⟨k, hc, hi, hk, h.symm⟩
  · simp at h

theorem Core.send_some {c c' : Core I R E} {x : I} (h : c.send n x = some c') :
    c.closed = false ∧ c.inputCh.length < n ∧
      c' = { c with inputCh := c.inputCh ++ [x], dispatched := c.dispatched ++ [x] } := by
  unfold Core.send at h
  split at h
  · simp at h
  · split at h
    · rename_i hc hlt
      simp at h
      exact ⟨by simpa using hc, hlt, h.symm⟩
    · simp at h

theorem Core.recv_some {c c' : Core I R E} {r : output R E} (h : c.recv = some (r, c')) :
    ∃ rest, c.outputCh = r :: rest ∧
      c' = { c with outputCh := rest, received := c.received ++ [r] } := by
  unfold Core.recv at h
  split at h
  · simp at h
  · rename_i r0 rest hr
    simp at h
    obtain ⟨h1, h2⟩ := h
    subst h1
    exact ⟨rest, hr, h2.symm⟩

theorem CoreInv.at_init (n : Nat) (solve : I → R × Option E) :
    CoreInv n solve (Core.init n : Core I R E) := by
  constructor <;> simp [Core.init]

/-- Conservation in numbers. -/
theorem CoreInv.count {c : Core I R E} (h : CoreInv n solve c) :
    c.received.length + c.inputCh.length + c.busy.length + c.outputCh.length
      = c.dispatched.length := by
  have := h.cons.length_eq
  simp at this
  omega

/-- A worker's send on `outputCh` never finds the buffer full. -/
theorem CoreInv.room_output {c : Core I R E} (h : CoreInv n solve c) (hb : c.busy ≠ []) :
    c.outputCh.length < n := by
  have h1 := h.count
  have h2 := h.bound
  have : 0 < c.busy.length := List.length_pos.mpr hb
  omega

/-- The control loop's send on `inputCh` finds room whenever fewer than `n` dispatched
items are without a received result. -/
theorem CoreInv.room_input {c : Core I R E} (h : CoreInv n solve c)
    (hlt : c.dispatched.length < c.received.length + n) : c.inputCh.length < n := by
  have h1 := h.count
  omega

theorem CoreInv.envStep {c c' : Core I R E} {l : Label} (h : CoreInv n solve c)
    (hs : c.envStep n solve l = some c') : CoreInv n solve c' := by
  rcases l with _ | _ | j | _ | _ | _ | _ | _ | _ <;> simp only [Core.envStep] at hs <;>
    try (simp at hs)
  · obtain ⟨_, rfl⟩ := Core.cancel_some hs
    exact ⟨h.pool, h.cons, h.drained, h.bound⟩
  · obtain ⟨k, x, rest, hk, hx, rfl⟩ := Core.take_some hs
    refine ⟨?_, ?_, ?_, h.bound⟩
    · have := h.pool
      simp
      omega
    · have := h.cons
      simpa [hx] using this
    · intro he
      have := h.drained he
      simp [hx] at this
  · obtain ⟨x, hx, _, rfl⟩ := Core.finish_some hs
    refine ⟨?_, ?_, h.drained, h.bound⟩
    · have := h.pool
      have := length_eraseIdx_of_get _ _ _ hx
      simp
      omega
    · refine List.Perm.trans ?_ h.cons
      have hp := perm_cons_eraseIdx _ _ _ hx
      have hp2 : (c.received ++ c.outputCh ++ (c.busy ++ c.inputCh).map (result solve)).Perm
          (c.received ++ c.outputCh ++
            ((x :: c.busy.eraseIdx j) ++ c.inputCh).map (result solve)) :=
        List.Perm.append_left _ (List.Perm.map _ (List.Perm.append_right _ hp))
      refine List.Perm.trans ?_ hp2.symm
      simp
  · obtain ⟨k, hc, hi, hk, rfl⟩ := Core.exit_some hs
    refine ⟨?_, h.cons, ?_, h.bound⟩
    · have := h.pool
      simp
      omega
    · intro _
      exact ⟨hc, hi⟩

theorem CoreInv.send {c c' : Core I R E} {x : I} (h : CoreInv n solve c)
    (hlt : c.dispatched.length < c.received.length + n) (hs : c.send n x = some c') :
    CoreInv n solve c' := by
  obtain ⟨hc, _, rfl⟩ := Core.send_some hs
  refine ⟨h.pool, ?_, ?_, ?_⟩
  · have := List.Perm.append_right [result solve x] h.cons
    simpa using this
  · intro he
    have := (h.drained he).1
    simp [hc] at this
  · simp
    omega

theorem CoreInv.recv {c c' : Core I R E} {r : output R E} (h : CoreInv n solve c)
    (hs : c.recv = some (r, c')) : CoreInv n solve c' := by
  obtain ⟨rest, hr, rfl⟩ := Core.recv_some hs
  refine ⟨h.pool, ?_, h.drained, ?_⟩
  · have := h.cons
    simpa [hr] using this
  · have := h.bound
    simp
    omega

theorem CoreInv.close {c : Core I R E} (h : CoreInv n solve c) : CoreInv n solve c.close :=
  ⟨h.pool, h.cons, fun he => ⟨rfl, (h.drained he).2⟩, h.bound⟩

/-- Worker and context actions touch neither the logs nor `closed`, and use up potential. -/
theorem Core.envStep_frame {c c' : Core I R E} {l : Label}
    (hs : c.envStep n solve l = some c') :
    c'.dispatched = c.dispatched ∧ c'.received = c.received ∧ c'.closed = c.closed ∧
      c'.weight < c.weight ∧ (l ≠ Label.cancel → c'.cancelled = c.cancelled) ∧
      (c.cancelled = true → c'.cancelled = true) ∧ c.exited ≤ c'.exited := by
  rcases l with _ | _ | j | _ | _ | _ | _ | _ | _ <;> simp only [Core.envStep] at hs <;>
    try (simp at hs)
  · obtain ⟨hc, rfl⟩ := Core.cancel_some hs
    simp [Core.weight, hc]
  · obtain ⟨k, x, rest, hk, hx, rfl⟩ := Core.take_some hs
    simp [Core.weight, hk, hx]
    omega
  · obtain ⟨x, hx, _, rfl⟩ := Core.finish_some hs
    have := length_eraseIdx_of_get _ _ _ hx
    simp [Core.weight]
    omega
  · obtain ⟨k, hc, hi, hk, rfl⟩ := Core.exit_some hs
    simp [Core.weight, hk]

/-- With the control loop stopped and `inputCh` closed, some worker can always act until
all have exited. -/
theorem CoreInv.worker_progress {c : Core I R E} (h : CoreInv n solve c)
    (hc : c.closed = true) (hne : c.exited ≠ n) :
    ∃ l, l ≠ Label.cancel ∧ (c.envStep n solve l).isSome = true := by
  by_cases hb : c.busy = []
  · by_cases hi : c.inputCh = []
    · refine ⟨Label.exit, by simp, ?_⟩
      have := h.pool
      simp [hb] at this
      obtain ⟨k, hk⟩ : ∃ k, c.idle = k + 1 := ⟨c.idle - 1, by omega⟩
      simp [Core.envStep, Core.exit, hc, hi, hk]
    · refine ⟨Label.take, by simp, ?_⟩
      have he : c.exited = 0 := by
        by_contra hx
        exact hi (h.drained (Nat.pos_of_ne_zero hx)).2
      have := h.pool
      simp [hb, he] at this
      have hcnt := h.count
      have hb2 := h.bound
      obtain ⟨x, rest, hx⟩ := List.exists_cons_of_ne_nil hi
      have hn : 0 < n := by
        simp [hx, hb] at hcnt
        omega
      obtain ⟨k, hk⟩ : ∃ k, c.idle = k + 1 := ⟨c.idle - 1, by omega⟩
      simp [Core.envStep, Core.take, hx, hk]
  · refine ⟨Label.finish 0, by simp, ?_⟩
    obtain ⟨x, rest, hx⟩ := List.exists_cons_of_ne_nil hb
    have := h.room_output hb
    simp [Core.envStep, Core.finish, hx, this]

theorem Core.send_weight {c c' : Core I R E} {x : I} (hs : c.send n x = some c') :
    c'.weight = c.weight + 3 ∧ c'.cancelled = c.cancelled := by
  obtain ⟨_, _, rfl⟩ := Core.send_some hs
  simp [Core.weight]
  omega

theorem Core.recv_weight {c c' : Core I R E} {r : output R E} (hs : c.recv = some (r, c')) :
    c'.weight + 1 = c.weight ∧ c'.cancelled = c.cancelled ∧ c'.dispatched = c.dispatched := by
  obtain ⟨rest, hr, rfl⟩ := Core.recv_some hs
  simp [Core.weight, hr]
  omega

theorem Core.close_weight (c : Core I R E) : c.close.weight = c.weight := rfl

theorem Core.close_dispatched (c : Core I R E) : c.close.dispatched = c.dispatched := rfl

end CoreLemmas

/-! ## `Run`: invariant, run_progress, termination -/

namespace Run
variable {I R E : Type} {cfg : Cfg I R E}

theorem Inv.run_init (cfg : Cfg I R E) : Inv cfg (init cfg) := by
  refine ⟨CoreInv.at_init _ _, ?_, ?_, ?_⟩ <;> simp [Run.init, Core.init, PcInv]

theorem Inv.index_le {s : State I R E} (h : Inv cfg s) : s.index ≤ cfg.queue.length := by
  have h1 := congrArg List.length h.disp
  rw [← h.idx, List.length_take] at h1
  omega

/-- At most `n` dispatched items are uncounted, and nothing is counted before it is received. -/
theorem Inv.run_window {s : State I R E} (h : Inv cfg s) :
    s.index ≤ s.complete + cfg.workers ∧ s.complete ≤ s.core.received.length := by
  have hp := h.pcinv
  unfold PcInv at hp
  cases hpc : s.pc with
  | prime =>
    simp only [hpc] at hp
    omega
  | select =>
    simp only [hpc] at hp
    exact ⟨hp.2.2.2.1, hp.1.2.2.le⟩
  | refill u =>
    simp only [hpc] at hp
    have := hp.1.2.2
    omega
  | join e =>
    simp only [hpc] at hp
    exact hp.2.2
  | ret e =>
    simp only [hpc] at hp
    exact hp.2.2.2

theorem Inv.run_prime {s t : State I R E} (h : Inv cfg s) (hs : prime cfg s = some t) :
    Inv cfg t := by
  unfold Run.prime at hs
  have hp := h.pcinv
  split at hs
  · rename_i hpc
    simp only [PcInv, hpc] at hp
    obtain ⟨hc0, hr, hcol, hiw, hcl⟩ := hp
    split at hs
    · rename_i hcond
      split at hs
      · rename_i x hx
        simp only [Option.map_eq_some'] at hs
        obtain ⟨c, hsend, rfl⟩ := hs
        have hlt : s.core.dispatched.length < s.core.received.length + cfg.workers := by
          rw [← h.idx]; omega
        have hci := h.core.send hlt hsend
        obtain ⟨_, _, rfl⟩ := Core.send_some hsend
        refine ⟨hci, ?_, ?_, ?_⟩
        · simp [h.idx]
        · simp only [h.disp]
          rw [List.take_succ, hx]
          simp
        · simp only [PcInv, hpc]
          exact ⟨hc0, hr, hcol, by omega, hcl⟩
      · simp at hs
    · simp only [Option.some.injEq] at hs
      subst hs
      refine ⟨h.core, h.idx, h.disp, ?_⟩
      have hle := h.index_le
      simp only [PcInv]
      exact ⟨⟨by simp [hr, hcol], by simp [hr], by simp [hr, hc0]⟩, hcl, by omega, by omega,
        by omega⟩
  all_goals simp at hs

theorem Clean.run_snoc {s : State I R E} {c : Core I R E} {r : output R E} (h : Clean s)
    (hc : c.received = s.core.received ++ [r]) (hr : r.err = none) :
    Clean { s with core := c, collected := s.collected ++ [r.val],
                   complete := s.complete + 1 } := by
  obtain ⟨h1, h2, h3⟩ := h
  refine ⟨?_, ?_, ?_⟩
  · simp [hc, h1]
  · intro q hq
    simp only [hc, List.mem_append, List.mem_singleton] at hq
    rcases hq with hq | hq
    · exact h2 q hq
    · exact hq ▸ hr
  · simp [hc, h3]

theorem Inv.run_selDone {s t : State I R E} (h : Inv cfg s) (hs : selDone cfg s = some t) :
    Inv cfg t := by
  unfold Run.selDone at hs
  split at hs
  · split at hs
    · rename_i hpc hcan
      have hp := h.pcinv
      simp only [PcInv, hpc] at hp
      simp only [Option.some.injEq] at hs
      subst hs
      refine ⟨h.core.close, h.idx, h.disp, ?_⟩
      show _ ∧ (_ ∨ _) ∧ _ ∧ _
      exact ⟨rfl, Or.inl ⟨hcan, rfl⟩, hp.2.2.2.1, hp.1.2.2.le⟩
    · simp at hs
  · simp at hs

theorem Inv.run_selRecv {s t : State I R E} (h : Inv cfg s) (hs : selRecv cfg s = some t) :
    Inv cfg t := by
  unfold Run.selRecv at hs
  have hp := h.pcinv
  have hle := h.index_le
  split at hs
  · rename_i hpc
    simp only [PcInv, hpc] at hp
    obtain ⟨hclean, hcl, hidx, hiw, hcL⟩ := hp
    split at hs
    · simp at hs
    · rename_i r c hrecv
      have hci := h.core.recv hrecv
      obtain ⟨rest, hout, hc⟩ := Core.recv_some hrecv
      have hrec : c.received = s.core.received ++ [r] := by rw [hc]
      have hdis : c.dispatched = s.core.dispatched := by rw [hc]
      have hmem : r ∈ c.received := by simp [hrec]
      split at hs
      · rename_i e he
        simp only [Option.some.injEq] at hs
        subst hs
        refine ⟨hci.close, by simpa [State.leave, Core.close, hdis] using h.idx,
          by simpa [State.leave, Core.close, hdis] using h.disp, ?_⟩
        show _ ∧ (_ ∨ _) ∧ _ ∧ _
        have hcm : s.complete ≤ c.received.length := by
          rw [hrec, List.length_append, ← hclean.2.2]; omega
        exact ⟨rfl, Or.inr (Or.inl ⟨r, hmem, he⟩), hiw, hcm⟩
      · rename_i he
        split at hs
        · rename_i e hcoll
          simp only [Option.some.injEq] at hs
          subst hs
          refine ⟨hci.close, by simpa [State.leave, Core.close, hdis] using h.idx,
            by simpa [State.leave, Core.close, hdis] using h.disp, ?_⟩
          show _ ∧ (_ ∨ _) ∧ _ ∧ _
          have hcm : s.complete ≤ c.received.length := by
            rw [hrec, List.length_append, ← hclean.2.2]; omega
          exact ⟨rfl, Or.inr (Or.inr ⟨s.collected, r, hmem, rfl, hcoll⟩), hiw, hcm⟩
        · have hclean2 := Clean.run_snoc hclean hrec he
          split at hs
          · rename_i hge
            simp only [Option.some.injEq] at hs
            subst hs
            refine ⟨hci.close, by simpa [State.leave, Core.close, hdis] using h.idx,
              by simpa [State.leave, Core.close, hdis] using h.disp, ?_⟩
            show _ ∧ (_ ∧ _) ∧ _ ∧ _
            have hb : s.index ≤ s.complete + 1 + cfg.workers := by omega
            exact ⟨rfl, ⟨hclean2, hge⟩, hb, hclean2.2.2.le⟩
          · rename_i hlt
            split at hs
            · rename_i hil
              simp only [Option.some.injEq] at hs
              subst hs
              refine ⟨hci, by simpa [hdis] using h.idx, by simpa [hdis] using h.disp, ?_⟩
              show _ ∧ _ ∧ _ ∧ _ ∧ _
              exact ⟨hclean2, by simp [hc, hcl], by simp only; omega, hil, by simp only; omega⟩
            · simp only [Option.some.injEq] at hs
              subst hs
              refine ⟨hci, by simpa [hdis] using h.idx, by simpa [hdis] using h.disp, ?_⟩
              rw [PcInv, hpc]
              exact ⟨hclean2, by simp [hc, hcl], by simp only; omega, by simp only; omega,
                by simp only; omega⟩
  all_goals simp at hs

theorem Inv.run_refill {s t : State I R E} (h : Inv cfg s) (hs : refill cfg s = some t) :
    Inv cfg t := by
  unfold Run.refill at hs
  have hp := h.pcinv
  split at hs
  · rename_i u hpc
    simp only [PcInv, hpc] at hp
    obtain ⟨hclean, hcl, hidx, hil, hcL⟩ := hp
    split at hs
    · rename_i x hx
      simp only [Option.map_eq_some'] at hs
      obtain ⟨c, hsend, rfl⟩ := hs
      have hlt : s.core.dispatched.length < s.core.received.length + cfg.workers := by
        rw [← h.idx, ← hclean.2.2]; omega
      have hci := h.core.send hlt hsend
      obtain ⟨_, _, rfl⟩ := Core.send_some hsend
      refine ⟨hci, ?_, ?_, ?_⟩
      · simp [h.idx]
      · simp only [h.disp]
        rw [List.take_succ, hx]
        simp
      · show _ ∧ _ ∧ _ ∧ _ ∧ _
        exact ⟨hclean, hcl, by simp only; omega, by simp only; omega, Or.inl hcL⟩
    · simp at hs
  all_goals simp at hs

theorem Inv.run_join {s t : State I R E} (h : Inv cfg s) (hs : join cfg s = some t) :
    Inv cfg t := by
  unfold Run.join at hs
  have hp := h.pcinv
  split at hs
  · rename_i e hpc
    simp only [PcInv, hpc] at hp
    split at hs
    · rename_i hex
      simp only [Option.some.injEq] at hs
      subst hs
      refine ⟨h.core, h.idx, h.disp, ?_⟩
      show _ ∧ _ ∧ _
      exact ⟨hp.1, hex, hp.2⟩
    · simp at hs
  · simp at hs

theorem run_step_cases {s t : State I R E} {l : Label} (hs : step cfg s l = some t) :
    (l = .prime ∧ prime cfg s = some t) ∨ (l = .selDone ∧ selDone cfg s = some t) ∨
    (l = .selRecv ∧ selRecv cfg s = some t) ∨ (l = .refill ∧ refill cfg s = some t) ∨
    (l = .join ∧ join cfg s = some t) ∨
    (∃ c, s.core.envStep cfg.workers cfg.solve l = some c ∧ t = { s with core := c }) := by
  cases l <;> simp only [step, Option.map_eq_some'] at hs <;> simp [hs]
  all_goals
    obtain ⟨c, hc, rfl⟩ := hs
    exact ⟨c, hc, rfl⟩

theorem Inv.run_env {s : State I R E} {c : Core I R E} {l : Label} (h : Inv cfg s)
    (hs : s.core.envStep cfg.workers cfg.solve l = some c) : Inv cfg { s with core := c } := by
  have hci := h.core.envStep hs
  obtain ⟨hd, hr, hcl, _, _, hcan, hex⟩ := Core.envStep_frame hs
  refine ⟨hci, by simpa [hd] using h.idx, by simpa [hd] using h.disp, ?_⟩
  have hp := h.pcinv
  unfold PcInv at hp ⊢
  unfold Clean at hp ⊢
  cases hpc : s.pc with
  | prime => simpa [hpc, hr, hcl] using hp
  | select => simpa only [hpc, hr, hcl] using hp
  | refill u => simpa only [hpc, hr, hcl] using hp
  | join e =>
    simp only [hpc] at hp ⊢
    refine ⟨by rw [hcl]; exact hp.1, ?_, hp.2.2.1, by rw [hr]; exact hp.2.2.2⟩
    cases e with
    | none => simpa only [Outcome, Clean, hr] using hp.2.1
    | some e =>
      rcases hp.2.1 with h1 | h1 | h1
      · exact Or.inl ⟨hcan h1.1, h1.2⟩
      · exact Or.inr (Or.inl (by simpa only [hr] using h1))
      · exact Or.inr (Or.inr (by simpa only [hr] using h1))
  | ret e =>
    simp only [hpc] at hp ⊢
    have hpool := hci.pool
    refine ⟨by rw [hcl]; exact hp.1, by omega, ?_, hp.2.2.2.1, by rw [hr]; exact hp.2.2.2.2⟩
    cases e with
    | none => simpa only [Outcome, Clean, hr] using hp.2.2.1
    | some e =>
      rcases hp.2.2.1 with h1 | h1 | h1
      · exact Or.inl ⟨hcan h1.1, h1.2⟩
      · exact Or.inr (Or.inl (by simpa only [hr] using h1))
      · exact Or.inr (Or.inr (by simpa only [hr] using h1))

theorem Inv.run_step {s t : State I R E} {l : Label} (h : Inv cfg s)
    (hs : step cfg s l = some t) : Inv cfg t := by
  rcases run_step_cases hs with ⟨_, h1⟩ | ⟨_, h1⟩ | ⟨_, h1⟩ | ⟨_, h1⟩ | ⟨_, h1⟩ | ⟨c, h1, rfl⟩
  · exact h.run_prime h1
  · exact h.run_selDone h1
  · exact h.run_selRecv h1
  · exact h.run_refill h1
  · exact h.run_join h1
  · exact h.run_env h1

/-- Every reachable state satisfies the invariant. -/
theorem Inv.run_reach {s : State I R E} {ls : List Label}
    (h : exec (Run.step cfg) (Run.init cfg) ls = some s) : Inv cfg s :=
  exec_induct (Inv cfg) (fun _ => True) (fun _ _ _ hi _ hs => hi.run_step hs) ls _ _
    (Inv.run_init cfg) (fun _ _ => trivial) h

/-- Every step of `Run` uses up potential: no schedule is longer than the initial potential. -/
theorem run_potential_step {s t : State I R E} {l : Label} (hs : step cfg s l = some t) :
    potential cfg t < potential cfg s := by
  rcases run_step_cases hs with ⟨_, h1⟩ | ⟨_, h1⟩ | ⟨_, h1⟩ | ⟨_, h1⟩ | ⟨_, h1⟩ | ⟨c, h1, rfl⟩
  · unfold Run.prime at h1
    split at h1
    · rename_i hpc
      split at h1
      · rename_i hcond
        split at h1
        · simp only [Option.map_eq_some'] at h1
          obtain ⟨c, hsend, rfl⟩ := h1
          have := (Core.send_weight hsend).1
          simp only [potential, hpc, this]
          omega
        · simp at h1
      · simp only [Option.some.injEq] at h1
        subst h1
        simp [potential, hpc, Pc.weight]
    all_goals simp at h1
  · unfold Run.selDone at h1
    split at h1
    · rename_i hpc
      split at h1
      · simp only [Option.some.injEq] at h1
        subst h1
        simp [potential, hpc, Pc.weight, State.leave, Core.close_weight]
      · simp at h1
    · simp at h1
  · unfold Run.selRecv at h1
    split at h1
    · rename_i hpc
      split at h1
      · simp at h1
      · rename_i r c hrecv
        have := (Core.recv_weight hrecv).1
        repeat' split at h1
        all_goals
          simp only [Option.some.injEq] at h1
          subst h1
          simp only [potential, hpc, Pc.weight, State.leave, Core.close_weight]
          omega
    all_goals simp at h1
  · unfold Run.refill at h1
    split at h1
    · rename_i u hpc
      split at h1
      · rename_i x hx
        simp only [Option.map_eq_some'] at h1
        obtain ⟨c, hsend, rfl⟩ := h1
        have := (Core.send_weight hsend).1
        have hlt : s.index < cfg.queue.length := by
          by_contra hge
          rw [List.getElem?_eq_none (by omega)] at hx
          simp at hx
        simp only [potential, hpc, this, Pc.weight]
        omega
      · simp at h1
    all_goals simp at h1
  · unfold Run.join at h1
    split at h1
    · rename_i e hpc
      split at h1
      · simp only [Option.some.injEq] at h1
        subst h1
        simp [potential, hpc, Pc.weight]
      · simp at h1
    · simp at h1
  · have := (Core.envStep_frame h1).2.2.2.1
    simp only [potential]
    omega

/-- Only the label `cancel` cancels the context. -/
theorem run_cancelled_step {s t : State I R E} {l : Label} (hl : l ≠ Label.cancel)
    (hs : step cfg s l = some t) : t.core.cancelled = s.core.cancelled := by
  rcases run_step_cases hs with ⟨_, h1⟩ | ⟨_, h1⟩ | ⟨_, h1⟩ | ⟨_, h1⟩ | ⟨_, h1⟩ | ⟨c, h1, rfl⟩
  · unfold Run.prime at h1
    repeat' split at h1
    all_goals first
      | (simp at h1; done)
      | (simp only [Option.map_eq_some'] at h1
         obtain ⟨c, hsend, rfl⟩ := h1
         exact (Core.send_weight hsend).2)
      | (simp only [Option.some.injEq] at h1
         subst h1
         rfl)
  · unfold Run.selDone at h1
    repeat' split at h1
    all_goals first
      | (simp at h1; done)
      | (simp only [Option.some.injEq] at h1
         subst h1
         rfl)
  · unfold Run.selRecv at h1
    split at h1
    · split at h1
      · simp at h1
      · rename_i r c hrecv
        have := (Core.recv_weight hrecv).2.1
        repeat' split at h1
        all_goals
          simp only [Option.some.injEq] at h1
          subst h1
          exact this
    all_goals simp at h1
  · unfold Run.refill at h1
    repeat' split at h1
    all_goals first
      | (simp at h1; done)
      | (simp only [Option.map_eq_some'] at h1
         obtain ⟨c, hsend, rfl⟩ := h1
         exact (Core.send_weight hsend).2)
  · unfold Run.join at h1
    repeat' split at h1
    all_goals first
      | (simp at h1; done)
      | (simp only [Option.some.injEq] at h1
         subst h1
         rfl)
  · exact (Core.envStep_frame h1).2.2.2.2.1 hl

/-- Once the closure has returned, nothing is collected or dispatched any more and the
error it returned is kept. -/
theorem run_stopped_step {s t : State I R E} {l : Label} (hst : s.pc.stopped = true)
    (hs : step cfg s l = some t) :
    t.pc.stopped = true ∧ t.pc.outcome = s.pc.outcome ∧ t.collected = s.collected ∧
      t.core.dispatched = s.core.dispatched ∧ t.core.received = s.core.received ∧
      t.complete = s.complete ∧ t.index = s.index := by
  rcases run_step_cases hs with ⟨_, h1⟩ | ⟨_, h1⟩ | ⟨_, h1⟩ | ⟨_, h1⟩ | ⟨_, h1⟩ | ⟨c, h1, rfl⟩
  · unfold Run.prime at h1
    split at h1
    · rename_i hpc
      simp [hpc, Pc.stopped] at hst
    all_goals simp at h1
  · unfold Run.selDone at h1
    split at h1
    · rename_i hpc
      simp [hpc, Pc.stopped] at hst
    all_goals simp at h1
  · unfold Run.selRecv at h1
    split at h1
    · rename_i hpc
      simp [hpc, Pc.stopped] at hst
    all_goals simp at h1
  · unfold Run.refill at h1
    split at h1
    · rename_i hpc
      simp [hpc, Pc.stopped] at hst
    all_goals simp at h1
  · unfold Run.join at h1
    split at h1
    · rename_i e hpc
      split at h1
      · simp only [Option.some.injEq] at h1
        subst h1
        simp [hpc, Pc.stopped, Pc.outcome]
      · simp at h1
    · simp at h1
  · obtain ⟨hd, hr, _⟩ := Core.envStep_frame h1
    exact ⟨hst, rfl, rfl, hd, hr, rfl, rfl⟩

/-- A call on a non-empty queue with at least one worker is never stuck before it returns. -/
theorem run_progress {s : State I R E} (h : Inv cfg s) (hw : 1 ≤ cfg.workers)
    (hq : cfg.queue ≠ []) (hret : s.pc.isRet = false) :
    ∃ l, l ≠ Label.cancel ∧ (step cfg s l).isSome = true := by
  have hp := h.pcinv
  have hL : 0 < cfg.queue.length := List.length_pos.mpr hq
  have hle := h.index_le
  have hcnt := h.core.count
  cases hpc : s.pc with
  | prime =>
    simp only [PcInv, hpc] at hp
    obtain ⟨hc0, hr, hcol, hiw, hcl⟩ := hp
    refine ⟨Label.prime, by simp, ?_⟩
    simp only [step, Run.prime, hpc]
    split
    · rename_i hcond
      have hb : s.index < cfg.queue.length := hcond.2
      have hx : cfg.queue[s.index]? = some cfg.queue[s.index] := List.getElem?_eq_getElem hb
      have hroom : s.core.inputCh.length < cfg.workers :=
        h.core.room_input (by rw [← h.idx]; omega)
      simp [hx, Core.send, hcl, hroom]
    · simp
  | select =>
    simp only [PcInv, hpc] at hp
    obtain ⟨hclean, hcl, hidx, hiw, hcL⟩ := hp
    by_cases ho : s.core.outputCh = []
    · have hclosed : ¬ (0 < s.core.exited) := fun he => by
        have := (h.core.drained he).1
        simp [hcl] at this
      have hpool := h.core.pool
      by_cases hb : s.core.busy = []
      · by_cases hi : s.core.inputCh = []
        · exfalso
          simp only [ho, hb, hi, List.length_nil, ← h.idx, ← hclean.2.2] at hcnt
          omega
        · refine ⟨Label.take, by simp, ?_⟩
          obtain ⟨x, rest, hx⟩ := List.exists_cons_of_ne_nil hi
          simp only [hb, List.length_nil] at hpool
          obtain ⟨k, hk⟩ : ∃ k, s.core.idle = k + 1 := ⟨s.core.idle - 1, by omega⟩
          simp [step, Core.envStep, Core.take, hx, hk]
      · refine ⟨Label.finish 0, by simp, ?_⟩
        obtain ⟨x, rest, hx⟩ := List.exists_cons_of_ne_nil hb
        have := h.core.room_output hb
        simp [step, Core.envStep, Core.finish, hx, this]
    · refine ⟨Label.selRecv, by simp, ?_⟩
      obtain ⟨r, rest, hr⟩ := List.exists_cons_of_ne_nil ho
      simp only [step, Run.selRecv, hpc, Core.recv, hr]
      repeat' split
      all_goals simp
  | refill u =>
    simp only [PcInv, hpc] at hp
    obtain ⟨hclean, hcl, hidx, hil, hcL⟩ := hp
    refine ⟨Label.refill, by simp, ?_⟩
    have hx : cfg.queue[s.index]? = some cfg.queue[s.index] := List.getElem?_eq_getElem hil
    have hroom : s.core.inputCh.length < cfg.workers :=
      h.core.room_input (by rw [← h.idx, ← hclean.2.2]; omega)
    simp [step, Run.refill, hpc, hx, Core.send, hcl, hroom]
  | join e =>
    simp only [PcInv, hpc] at hp
    by_cases hex : s.core.exited = cfg.workers
    · exact ⟨Label.join, by simp, by simp [step, Run.join, hpc, hex]⟩
    · obtain ⟨l, hl, hen⟩ := h.core.worker_progress hp.1 hex
      refine ⟨l, hl, ?_⟩
      cases l <;> simp_all [step, Core.envStep]
  | ret e => simp [hpc, Pc.isRet] at hret

theorem run_workers_of_pos (h : 1 ≤ cfg.n) : cfg.workers = cfg.n.toNat ∧ 1 ≤ cfg.workers := by
  unfold Cfg.workers workerCount
  rw [if_neg (by omega)]
  exact ⟨rfl, by omega⟩

theorem potential_init (cfg : Cfg I R E) :
    potential cfg (init cfg) = 4 * cfg.queue.length + cfg.workers + 4 := by
  simp [potential, init, Core.init, Core.weight, Pc.weight]
  omega

/-- No schedule of `Run` is longer than the initial potential. -/
theorem length_le {s : State I R E} {ls : List Label}
    (h : exec (step cfg) (init cfg) ls = some s) :
    ls.length ≤ 4 * cfg.queue.length + cfg.workers + 4 := by
  have := exec_length_le (potential cfg) (fun _ => True) (fun _ => True)
    (fun _ _ _ _ _ _ => trivial) (fun _ _ _ _ _ hs => run_potential_step hs) ls _ _ trivial
    (fun _ _ => trivial) h
  rw [potential_init] at this
  omega

/-- Along a schedule without `cancel` the context stays uncancelled. -/
theorem run_reach_nocancel {s : State I R E} {ls : List Label} (hnc : NoCancel ls)
    (h : exec (step cfg) (init cfg) ls = some s) : s.core.cancelled = false :=
  exec_induct (fun s : State I R E => s.core.cancelled = false) (fun l => l ≠ Label.cancel)
    (fun _ _ _ hc hl hs => (run_cancelled_step hl hs).trans hc) ls _ _ rfl
    (fun _ hl hEq => hnc (hEq ▸ hl)) h

/-- A stopped control loop stays stopped along every schedule, with everything it logged. -/
theorem run_stopped_exec {s t : State I R E} {ls : List Label} (hst : s.pc.stopped = true)
    (h : exec (step cfg) s ls = some t) :
    t.pc.stopped = true ∧ t.pc.outcome = s.pc.outcome ∧ t.collected = s.collected ∧
      t.core.dispatched = s.core.dispatched ∧ t.core.received = s.core.received := by
  have := exec_induct
    (fun u : State I R E => u.pc.stopped = true ∧ u.pc.outcome = s.pc.outcome ∧
      u.collected = s.collected ∧ u.core.dispatched = s.core.dispatched ∧
      u.core.received = s.core.received) (fun _ => True)
    (fun u _ v hu _ hs => by
      obtain ⟨h1, h2, h3, h4, h5, _⟩ := run_stopped_step hu.1 hs
      exact ⟨h1, h2.trans hu.2.1, h3.trans hu.2.2.1, h4.trans hu.2.2.2.1,
        h5.trans hu.2.2.2.2⟩)
    ls s t ⟨hst, rfl, rfl, rfl, rfl⟩ (fun _ _ => trivial) h
  exact this

/-- Every received result is the result of a dispatched item, which is an item of the queue. -/
theorem Inv.received_mem {s : State I R E} (h : Inv cfg s) {r : output R E}
    (hr : r ∈ s.core.received) : ∃ x ∈ cfg.queue, result cfg.solve x = r := by
  have h1 : r ∈ s.core.received ++ s.core.outputCh ++
      (s.core.busy ++ s.core.inputCh).map (result cfg.solve) := by
    simp [hr]
  have h2 := h.core.cons.subset h1
  obtain ⟨x, hx, rfl⟩ := List.mem_map.mp h2
  rw [h.disp] at hx
  exact ⟨x, List.mem_of_mem_take hx, rfl⟩

/-- When `complete` has reached `len(queue)` with every received result collected, the
results received are exactly the results of the queue's items, each once. -/
theorem Inv.all_received {s : State I R E} (h : Inv cfg s) (hc : Clean s)
    (hL : cfg.queue.length ≤ s.complete) :
    s.core.received.Perm (cfg.queue.map (result cfg.solve)) ∧
      s.collected.Perm (cfg.queue.map fun x => (cfg.solve x).1) := by
  have hcnt := h.core.count
  have hle := h.index_le
  have hidx := h.idx
  have h3 := hc.2.2
  have hi : s.core.inputCh = [] := List.length_eq_zero.mp (by omega)
  have hb : s.core.busy = [] := List.length_eq_zero.mp (by omega)
  have ho : s.core.outputCh = [] := List.length_eq_zero.mp (by omega)
  have hfull : s.index = cfg.queue.length := by omega
  have hcons := h.core.cons
  rw [hi, hb, ho, h.disp, hfull, List.take_length] at hcons
  simp only [List.append_nil, List.map_nil] at hcons
  refine ⟨hcons, ?_⟩
  rw [hc.1]
  have := hcons.map output.val
  simpa [result, Function.comp_def] using this

theorem Inv.run_exec {s t : State I R E} {ls : List Label} (h : Inv cfg s)
    (hs : Corun.exec (Run.step cfg) s ls = some t) : Inv cfg t :=
  exec_induct (Inv cfg) (fun _ => True) (fun _ _ _ hi _ hs => hi.run_step hs) ls _ _ h
    (fun _ _ => trivial) hs

/-- While `wg.Wait()` is pending some worker can act or the wait is over. -/
theorem run_progress_stopped {s : State I R E} (h : Inv cfg s) (hst : s.pc.stopped = true)
    (hret : s.pc.isRet = false) :
    ∃ l, l ≠ Label.cancel ∧ (step cfg s l).isSome = true := by
  have hp := h.pcinv
  cases hpc : s.pc with
  | join e =>
    simp only [PcInv, hpc] at hp
    by_cases hex : s.core.exited = cfg.workers
    · exact ⟨Label.join, by simp, by simp [step, Run.join, hpc, hex]⟩
    · obtain ⟨l, hl, hen⟩ := h.core.worker_progress hp.1 hex
      refine ⟨l, hl, ?_⟩
      cases l <;> simp_all [step, Core.envStep]
  | ret e => simp [hpc, Pc.isRet] at hret
  | prime => simp [hpc, Pc.stopped] at hst
  | select => simp [hpc, Pc.stopped] at hst
  | refill u => simp [hpc, Pc.stopped] at hst

/-- A reachable state in which the closure has returned `e` run_settles on `e`. -/
theorem run_settles {t : State I R E} {e : Option E} (h : Inv cfg t)
    (hpc : t.pc.outcome = some e) : Settles cfg t e := by
  intro ms u hu
  have hst : t.pc.stopped = true := by
    cases hp : t.pc <;> simp [hp, Pc.outcome] at hpc <;> rfl
  obtain ⟨h1, h2, h3, h4, _⟩ := run_stopped_exec hst hu
  have hlen := exec_length_le (potential cfg) (fun _ => True) (fun _ => True)
    (fun _ _ _ _ _ _ => trivial) (fun _ _ _ _ _ hs => run_potential_step hs) ms _ _ trivial
    (fun _ _ => trivial) hu
  refine ⟨by omega, h3, h4, run_progress_stopped (h.run_exec hu) h1, ?_⟩
  intro e' hu'
  rw [hu', hpc] at h2
  simpa [Pc.outcome] using h2

end Run

/-! ## `RunFunc`: invariant, func_progress, termination -/

namespace RunFunc
variable {I R E : Type} {cfg : Cfg I R E}

theorem Inv.func_init (cfg : Cfg I R E) : Inv cfg (init cfg) := by
  refine ⟨CoreInv.at_init _ _, ?_⟩
  simp [RunFunc.init, Core.init, PcInv]

theorem Clean.func_snoc {s : State I R E} {c : Core I R E} {r : output R E} (h : Clean s)
    (hc : c.received = s.core.received ++ [r]) (hr : r.err = none)
    (t : State I R E) (h1 : t.core.received = c.received)
    (h2 : t.collected = s.collected ++ [r.val]) (h3 : t.complete = s.complete + 1) :
    Clean t := by
  obtain ⟨g1, g2, g3⟩ := h
  refine ⟨?_, ?_, ?_⟩
  · simp [h1, h2, hc, g1]
  · intro q hq
    simp only [h1, hc, List.mem_append, List.mem_singleton] at hq
    rcases hq with hq | hq
    · exact g2 q hq
    · exact hq ▸ hr
  · simp [h1, h3, hc, g3]

theorem Inv.func_prime {s t : State I R E} (h : Inv cfg s) (hs : prime cfg s = some t) :
    Inv cfg t := by
  unfold RunFunc.prime at hs
  have hp := h.pcinv
  split at hs
  · rename_i hpc
    simp only [PcInv, hpc] at hp
    obtain ⟨hc0, hr, hcol, hiw, hcl, hf, hcd⟩ := hp
    split at hs
    · rename_i hcond
      split at hs
      · rename_i e he
        simp only [Option.some.injEq] at hs
        subst hs
        refine ⟨h.core.close, ?_⟩
        show _ ∧ (_ ∨ _ ∨ _ ∨ _) ∧ _
        refine ⟨rfl, Or.inr (Or.inr (Or.inr ⟨s.calls, rfl, he⟩)), ?_, ?_, ?_⟩
        · show s.count ≤ s.complete + cfg.workers
          omega
        · show s.complete ≤ s.core.received.length
          omega
        · show s.core.dispatched.length ≤ s.count
          omega
      · split at hs
        · simp only [Option.map_eq_some'] at hs
          obtain ⟨c, hsend, rfl⟩ := hs
          have hlt : s.core.dispatched.length < s.core.received.length + cfg.workers := by
            rw [← hcd]; omega
          have hci := h.core.send hlt hsend
          obtain ⟨_, _, rfl⟩ := Core.send_some hsend
          refine ⟨hci, ?_⟩
          rw [PcInv, hpc]
          refine ⟨hc0, hr, hcol, ?_, hcl, hf, ?_⟩
          · show s.count + 1 ≤ cfg.workers
            omega
          · show s.count + 1 = (s.core.dispatched ++ [_]).length
            simp [hcd]
        · simp only [Option.some.injEq] at hs
          subst hs
          refine ⟨h.core, ?_⟩
          show _ ∧ _ ∧ _ ∧ _ ∧ _
          refine ⟨⟨?_, ?_, ?_⟩, hcl, hcd, ?_, ?_⟩
          · show s.collected = _
            simp [hr, hcol]
          · show ∀ r ∈ s.core.received, _
            simp [hr]
          · show s.complete = s.core.received.length
            simp [hr, hc0]
          · show s.count ≤ s.complete + cfg.workers
            omega
          · intro hx
            simp at hx
    · simp only [Option.some.injEq] at hs
      subst hs
      refine ⟨h.core, ?_⟩
      show _ ∧ _ ∧ _ ∧ _ ∧ _
      refine ⟨⟨?_, ?_, ?_⟩, hcl, hcd, ?_, ?_⟩
      · show s.collected = _
        simp [hr, hcol]
      · show ∀ r ∈ s.core.received, _
        simp [hr]
      · show s.complete = s.core.received.length
        simp [hr, hc0]
      · show s.count ≤ s.complete + cfg.workers
        omega
      · intro _
        show s.count = s.complete + cfg.workers
        omega
  all_goals simp at hs

theorem Inv.func_selDone {s t : State I R E} (h : Inv cfg s) (hs : selDone cfg s = some t) :
    Inv cfg t := by
  unfold RunFunc.selDone at hs
  split at hs
  · split at hs
    · rename_i hpc hcan
      have hp := h.pcinv
      simp only [PcInv, hpc] at hp
      simp only [Option.some.injEq] at hs
      subst hs
      refine ⟨h.core.close, ?_⟩
      show _ ∧ (_ ∨ _) ∧ _
      exact ⟨rfl, Or.inl ⟨hcan, rfl⟩, hp.2.2.2.1, hp.1.2.2.le, hp.2.2.1.ge⟩
    · simp at hs
  · simp at hs

theorem Inv.func_refill {s t : State I R E} (h : Inv cfg s) (hs : refill cfg s = some t) :
    Inv cfg t := by
  unfold RunFunc.refill at hs
  have hp := h.pcinv
  split at hs
  · rename_i x hpc
    simp only [PcInv, hpc] at hp
    obtain ⟨hclean, hcl, hcd, hiw, hf⟩ := hp
    simp only [Option.map_eq_some'] at hs
    obtain ⟨c, hsend, rfl⟩ := hs
    have hlt : s.core.dispatched.length < s.core.received.length + cfg.workers := by
      rw [← hclean.2.2]; omega
    have hci := h.core.send hlt hsend
    obtain ⟨_, _, rfl⟩ := Core.send_some hsend
    refine ⟨hci, ?_⟩
    show _ ∧ _ ∧ _ ∧ _ ∧ _
    refine ⟨hclean, hcl, ?_, hiw, hf⟩
    show s.count = (s.core.dispatched ++ [x]).length
    simp [hcd]
  all_goals simp at hs

theorem Inv.func_join {s t : State I R E} (h : Inv cfg s) (hs : join cfg s = some t) :
    Inv cfg t := by
  unfold RunFunc.join at hs
  have hp := h.pcinv
  split at hs
  · rename_i e hpc
    simp only [PcInv, hpc] at hp
    split at hs
    · rename_i hex
      simp only [Option.some.injEq] at hs
      subst hs
      refine ⟨h.core, ?_⟩
      show _ ∧ _ ∧ _
      exact ⟨hp.1, hex, hp.2⟩
    · simp at hs
  · simp at hs

theorem Inv.func_selRecv {s t : State I R E} (h : Inv cfg s) (hs : selRecv cfg s = some t) :
    Inv cfg t := by
  unfold RunFunc.selRecv at hs
  have hp := h.pcinv
  split at hs
  · rename_i hpc
    simp only [PcInv, hpc] at hp
    obtain ⟨hclean, hcl, hcd, hiw, hf⟩ := hp
    split at hs
    · simp at hs
    · rename_i r c hrecv
      have hci := h.core.recv hrecv
      obtain ⟨rest, hout, hc⟩ := Core.recv_some hrecv
      have hrec : c.received = s.core.received ++ [r] := by rw [hc]
      have hdis : c.dispatched = s.core.dispatched := by rw [hc]
      have hccl : c.closed = false := by rw [hc]; exact hcl
      have hmem : r ∈ c.received := by simp [hrec]
      have hcm : s.complete ≤ c.received.length := by
        rw [hrec, List.length_append, ← hclean.2.2]; omega
      have hcm1 : s.complete + 1 ≤ c.received.length := by
        rw [hrec, List.length_append, ← hclean.2.2]; simp
      have hdc : c.dispatched.length ≤ s.count := by rw [hdis, hcd]
      split at hs
      · rename_i e he
        simp only [Option.some.injEq] at hs
        subst hs
        refine ⟨hci.close, ?_⟩
        show _ ∧ (_ ∨ _) ∧ _
        exact ⟨rfl, Or.inr (Or.inl ⟨r, hmem, he⟩), hiw, hcm, hdc⟩
      · rename_i he
        split at hs
        · rename_i e hcoll
          simp only [Option.some.injEq] at hs
          subst hs
          refine ⟨hci.close, ?_⟩
          show _ ∧ (_ ∨ _) ∧ _
          exact ⟨rfl, Or.inr (Or.inr (Or.inl ⟨s.collected, r, hmem, rfl, hcoll⟩)), hiw, hcm, hdc⟩
        · split at hs
          · rename_i hge
            simp only [Option.some.injEq] at hs
            subst hs
            refine ⟨hci.close, ?_⟩
            show _ ∧ (_ ∧ _ ∧ _) ∧ _
            refine ⟨rfl, ⟨Clean.func_snoc hclean hrec he _ rfl rfl rfl, hge.1, hge.2⟩, ?_, hcm1, hdc⟩
            show s.count ≤ s.complete + 1 + cfg.workers
            omega
          · rename_i hlt
            split at hs
            · rename_i e hfe
              simp only [Option.some.injEq] at hs
              subst hs
              refine ⟨hci.close, ?_⟩
              show _ ∧ (_ ∨ _ ∨ _ ∨ _) ∧ _
              refine ⟨rfl, Or.inr (Or.inr (Or.inr ⟨s.calls, rfl, hfe⟩)), ?_, hcm1, hdc⟩
              show s.count ≤ s.complete + 1 + cfg.workers
              omega
            · split at hs
              · simp only [Option.some.injEq] at hs
                subst hs
                refine ⟨hci, ?_⟩
                show _ ∧ _ ∧ _ ∧ _ ∧ _
                refine ⟨Clean.func_snoc hclean hrec he _ rfl rfl rfl, hccl, ?_, ?_, ?_⟩
                · show s.count + 1 = c.dispatched.length + 1
                  rw [hdis, hcd]
                · show s.count + 1 ≤ s.complete + 1 + cfg.workers
                  omega
                · intro hx
                  have := hf hx
                  show s.count + 1 = s.complete + 1 + cfg.workers
                  omega
              · split at hs
                · rename_i hge
                  simp only [Option.some.injEq] at hs
                  subst hs
                  refine ⟨hci.close, ?_⟩
                  show _ ∧ (_ ∧ _ ∧ _) ∧ _
                  refine ⟨rfl, ⟨Clean.func_snoc hclean hrec he _ rfl rfl rfl, rfl, hge⟩, ?_, hcm1, hdc⟩
                  show s.count ≤ s.complete + 1 + cfg.workers
                  omega
                · simp only [Option.some.injEq] at hs
                  subst hs
                  refine ⟨hci, ?_⟩
                  rw [PcInv, hpc]
                  refine ⟨Clean.func_snoc hclean hrec he _ rfl rfl rfl, hccl, ?_, ?_, ?_⟩
                  · show s.count = c.dispatched.length
                    rw [hdis, hcd]
                  · show s.count ≤ s.complete + 1 + cfg.workers
                    omega
                  · intro hx
                    simp at hx
  all_goals simp at hs

theorem func_step_cases {s t : State I R E} {l : Label} (hs : step cfg s l = some t) :
    (l = .prime ∧ prime cfg s = some t) ∨ (l = .selDone ∧ selDone cfg s = some t) ∨
    (l = .selRecv ∧ selRecv cfg s = some t) ∨ (l = .refill ∧ refill cfg s = some t) ∨
    (l = .join ∧ join cfg s = some t) ∨
    (∃ c, s.core.envStep cfg.workers cfg.solve l = some c ∧ t = { s with core := c }) := by
  cases l <;> simp only [step, Option.map_eq_some'] at hs <;> simp [hs]
  all_goals
    obtain ⟨c, hc, rfl⟩ := hs
    exact ⟨c, hc, rfl⟩

theorem Outcome.func_outcome_env {s : State I R E} {c : Core I R E} {e : Option E} (h : Outcome cfg s e)
    (hr : c.received = s.core.received)
    (hcan : s.core.cancelled = true → c.cancelled = true) :
    Outcome cfg { s with core := c } e := by
  cases e with
  | none => simpa only [Outcome, Clean, hr] using h
  | some e =>
    rcases h with h1 | h1 | h1 | h1
    · exact Or.inl ⟨hcan h1.1, h1.2⟩
    · exact Or.inr (Or.inl (by simpa only [hr] using h1))
    · exact Or.inr (Or.inr (Or.inl (by simpa only [hr] using h1)))
    · exact Or.inr (Or.inr (Or.inr h1))

theorem Inv.func_env {s : State I R E} {c : Core I R E} {l : Label} (h : Inv cfg s)
    (hs : s.core.envStep cfg.workers cfg.solve l = some c) : Inv cfg { s with core := c } := by
  have hci := h.core.envStep hs
  obtain ⟨hd, hr, hcl, _, _, hcan, hex⟩ := Core.envStep_frame hs
  refine ⟨hci, ?_⟩
  have hp := h.pcinv
  unfold PcInv at hp ⊢
  unfold Clean at hp ⊢
  cases hpc : s.pc with
  | prime => simpa [hpc, hr, hcl, hd] using hp
  | select => simpa only [hpc, hr, hcl, hd] using hp
  | refill u => simpa only [hpc, hr, hcl, hd] using hp
  | join e =>
    simp only [hpc] at hp ⊢
    exact ⟨by rw [hcl]; exact hp.1, hp.2.1.func_outcome_env hr hcan,
      by simpa only [Frozen, hr, hd] using hp.2.2⟩
  | ret e =>
    simp only [hpc] at hp ⊢
    have hpool := hci.pool
    exact ⟨by rw [hcl]; exact hp.1, by omega, hp.2.2.1.func_outcome_env hr hcan,
      by simpa only [Frozen, hr, hd] using hp.2.2.2⟩

theorem Inv.func_step {s t : State I R E} {l : Label} (h : Inv cfg s)
    (hs : RunFunc.step cfg s l = some t) : Inv cfg t := by
  rcases func_step_cases hs with ⟨_, h1⟩ | ⟨_, h1⟩ | ⟨_, h1⟩ | ⟨_, h1⟩ | ⟨_, h1⟩ | ⟨c, h1, rfl⟩
  · exact h.func_prime h1
  · exact h.func_selDone h1
  · exact h.func_selRecv h1
  · exact h.func_refill h1
  · exact h.func_join h1
  · exact h.func_env h1

/-- Every reachable state satisfies the invariant. -/
theorem Inv.func_reach {s : State I R E} {ls : List Label}
    (h : exec (RunFunc.step cfg) (RunFunc.init cfg) ls = some s) : Inv cfg s :=
  exec_induct (Inv cfg) (fun _ => True) (fun _ _ _ hi _ hs => hi.func_step hs) ls _ _
    (Inv.func_init cfg) (fun _ _ => trivial) h

/-- At most `n` dispatched items are uncounted, nothing is counted before it is received,
and `count` is never behind the number of items sent. -/
theorem Inv.func_window {s : State I R E} (h : Inv cfg s) : Frozen cfg s := by
  have hp := h.pcinv
  unfold PcInv at hp
  unfold Frozen
  cases hpc : s.pc with
  | prime =>
    simp only [hpc] at hp
    omega
  | select =>
    simp only [hpc] at hp
    have := hp.1.2.2
    omega
  | refill u =>
    simp only [hpc] at hp
    have := hp.1.2.2
    omega
  | join e =>
    simp only [hpc] at hp
    exact hp.2.2
  | ret e =>
    simp only [hpc] at hp
    exact hp.2.2.2

theorem func_workers_of_pos (h : 1 ≤ cfg.n) : cfg.workers = cfg.n.toNat ∧ 1 ≤ cfg.workers := by
  unfold Cfg.workers workerCount
  rw [if_neg (by omega)]
  exact ⟨rfl, by omega⟩

/-- A step of `RunFunc` uses up potential, provided the source yields at most `k` items
(or the step dispatched nothing). -/
theorem func_potential_step {k : Nat} {s t : State I R E} {l : Label}
    (hs : step cfg s l = some t)
    (hk : t.core.dispatched.length ≤ k ∨ t.core.dispatched = s.core.dispatched) :
    potential k t < potential k s := by
  rcases func_step_cases hs with ⟨_, h1⟩ | ⟨_, h1⟩ | ⟨_, h1⟩ | ⟨_, h1⟩ | ⟨_, h1⟩ | ⟨c, h1, rfl⟩
  · unfold RunFunc.prime at h1
    split at h1
    · rename_i hpc
      split at h1
      · split at h1
        · simp only [Option.some.injEq] at h1
          subst h1
          simp [potential, hpc, Pc.weight, State.leave, Core.close_weight, Core.close_dispatched]
        · split at h1
          · simp only [Option.map_eq_some'] at h1
            obtain ⟨c, hsend, rfl⟩ := h1
            have hw := (Core.send_weight hsend).1
            obtain ⟨_, _, hc⟩ := Core.send_some hsend
            have hd : c.dispatched.length = s.core.dispatched.length + 1 := by simp [hc]
            have hk2 : c.dispatched.length ≤ k := by
              rcases hk with hk | hk
              · exact hk
              · have := congrArg List.length hk
                simp only at this
                omega
            simp only [potential, hpc, hw]
            omega
          · simp only [Option.some.injEq] at h1
            subst h1
            simp [potential, hpc, Pc.weight]
      · simp only [Option.some.injEq] at h1
        subst h1
        simp [potential, hpc, Pc.weight]
    all_goals simp at h1
  · unfold RunFunc.selDone at h1
    split at h1
    · rename_i hpc
      split at h1
      · simp only [Option.some.injEq] at h1
        subst h1
        simp [potential, hpc, Pc.weight, State.leave, Core.close_weight, Core.close_dispatched]
      · simp at h1
    · simp at h1
  · unfold RunFunc.selRecv at h1
    split at h1
    · rename_i hpc
      split at h1
      · simp at h1
      · rename_i r c hrecv
        obtain ⟨hw, _, hd⟩ := Core.recv_weight hrecv
        repeat' split at h1
        all_goals
          simp only [Option.some.injEq] at h1
          subst h1
          simp only [potential, hpc, Pc.weight, State.leave, Core.close_weight, Core.close_dispatched, hd]
          omega
    all_goals simp at h1
  · unfold RunFunc.refill at h1
    split at h1
    · rename_i x hpc
      simp only [Option.map_eq_some'] at h1
      obtain ⟨c, hsend, rfl⟩ := h1
      have hw := (Core.send_weight hsend).1
      obtain ⟨_, _, hc⟩ := Core.send_some hsend
      have hd : c.dispatched.length = s.core.dispatched.length + 1 := by simp [hc]
      have hk2 : c.dispatched.length ≤ k := by
        rcases hk with hk | hk
        · exact hk
        · have := congrArg List.length hk
          simp only at this
          omega
      simp only [potential, hpc, hw, Pc.weight]
      omega
    all_goals simp at h1
  · unfold RunFunc.join at h1
    split at h1
    · rename_i e hpc
      split at h1
      · simp only [Option.some.injEq] at h1
        subst h1
        simp [potential, hpc, Pc.weight]
      · simp at h1
    · simp at h1
  · obtain ⟨hd, _, _, hw, _⟩ := Core.envStep_frame h1
    simp only [potential, hd]
    omega

/-- Only the label `cancel` cancels the context. -/
theorem func_cancelled_step {s t : State I R E} {l : Label} (hl : l ≠ Label.cancel)
    (hs : step cfg s l = some t) : t.core.cancelled = s.core.cancelled := by
  rcases func_step_cases hs with ⟨_, h1⟩ | ⟨_, h1⟩ | ⟨_, h1⟩ | ⟨_, h1⟩ | ⟨_, h1⟩ | ⟨c, h1, rfl⟩
  · unfold RunFunc.prime at h1
    repeat' split at h1
    all_goals first
      | (simp at h1; done)
      | (simp only [Option.map_eq_some'] at h1
         obtain ⟨c, hsend, rfl⟩ := h1
         exact (Core.send_weight hsend).2)
      | (simp only [Option.some.injEq] at h1
         subst h1
         rfl)
  · unfold RunFunc.selDone at h1
    repeat' split at h1
    all_goals first
      | (simp at h1; done)
      | (simp only [Option.some.injEq] at h1
         subst h1
         rfl)
  · unfold RunFunc.selRecv at h1
    split at h1
    · split at h1
      · simp at h1
      · rename_i r c hrecv
        have := (Core.recv_weight hrecv).2.1
        repeat' split at h1
        all_goals
          simp only [Option.some.injEq] at h1
          subst h1
          exact this
    all_goals simp at h1
  · unfold RunFunc.refill at h1
    repeat' split at h1
    all_goals first
      | (simp at h1; done)
      | (simp only [Option.map_eq_some'] at h1
         obtain ⟨c, hsend, rfl⟩ := h1
         exact (Core.send_weight hsend).2)
  · unfold RunFunc.join at h1
    repeat' split at h1
    all_goals first
      | (simp at h1; done)
      | (simp only [Option.some.injEq] at h1
         subst h1
         rfl)
  · exact (Core.envStep_frame h1).2.2.2.2.1 hl

/-- Once the closure has returned, nothing is collected, dispatched or fetched any more and
the error it returned is kept. -/
theorem func_stopped_step {s t : State I R E} {l : Label} (hst : s.pc.stopped = true)
    (hs : step cfg s l = some t) :
    t.pc.stopped = true ∧ t.pc.outcome = s.pc.outcome ∧ t.collected = s.collected ∧
      t.core.dispatched = s.core.dispatched ∧ t.core.received = s.core.received ∧
      t.calls = s.calls := by
  rcases func_step_cases hs with ⟨_, h1⟩ | ⟨_, h1⟩ | ⟨_, h1⟩ | ⟨_, h1⟩ | ⟨_, h1⟩ | ⟨c, h1, rfl⟩
  · unfold RunFunc.prime at h1
    split at h1
    · rename_i hpc
      simp [hpc, Pc.stopped] at hst
    all_goals simp at h1
  · unfold RunFunc.selDone at h1
    split at h1
    · rename_i hpc
      simp [hpc, Pc.stopped] at hst
    all_goals simp at h1
  · unfold RunFunc.selRecv at h1
    split at h1
    · rename_i hpc
      simp [hpc, Pc.stopped] at hst
    all_goals simp at h1
  · unfold RunFunc.refill at h1
    split at h1
    · rename_i hpc
      simp [hpc, Pc.stopped] at hst
    all_goals simp at h1
  · unfold RunFunc.join at h1
    split at h1
    · rename_i e hpc
      split at h1
      · simp only [Option.some.injEq] at h1
        subst h1
        simp [hpc, Pc.stopped, Pc.outcome]
      · simp at h1
    · simp at h1
  · obtain ⟨hd, hr, _⟩ := Core.envStep_frame h1
    exact ⟨hst, rfl, rfl, hd, hr, rfl⟩

/-- With at least one worker, a call is never stuck before it returns, as long as the
`select` is not reached with every dispatched item already counted. -/
theorem func_progress {s : State I R E} (h : Inv cfg s) (hw : 1 ≤ cfg.workers)
    (hsel : s.pc = Pc.select → s.complete < s.count) (hret : s.pc.isRet = false) :
    ∃ l, l ≠ Label.cancel ∧ (step cfg s l).isSome = true := by
  have hp := h.pcinv
  have hcnt := h.core.count
  cases hpc : s.pc with
  | prime =>
    simp only [PcInv, hpc] at hp
    obtain ⟨hc0, hr, hcol, hiw, hcl, hf, hcd⟩ := hp
    refine ⟨Label.prime, by simp, ?_⟩
    simp only [step, RunFunc.prime, hpc]
    split
    · rename_i hcond
      have hroom : s.core.inputCh.length < cfg.workers :=
        h.core.room_input (by rw [← hcd]; omega)
      repeat' split
      all_goals simp [Core.send, hcl, hroom]
    · simp
  | select =>
    have hlt := hsel hpc
    simp only [PcInv, hpc] at hp
    obtain ⟨hclean, hcl, hcd, hiw, hf⟩ := hp
    by_cases ho : s.core.outputCh = []
    · have hclosed : ¬ (0 < s.core.exited) := fun he => by
        have := (h.core.drained he).1
        simp [hcl] at this
      have hpool := h.core.pool
      by_cases hb : s.core.busy = []
      · by_cases hi : s.core.inputCh = []
        · exfalso
          simp only [ho, hb, hi, List.length_nil, ← hcd, ← hclean.2.2] at hcnt
          omega
        · refine ⟨Label.take, by simp, ?_⟩
          obtain ⟨x, rest, hx⟩ := List.exists_cons_of_ne_nil hi
          simp only [hb, List.length_nil] at hpool
          obtain ⟨k, hk⟩ : ∃ k, s.core.idle = k + 1 := ⟨s.core.idle - 1, by omega⟩
          simp [step, Core.envStep, Core.take, hx, hk]
      · refine ⟨Label.finish 0, by simp, ?_⟩
        obtain ⟨x, rest, hx⟩ := List.exists_cons_of_ne_nil hb
        have := h.core.room_output hb
        simp [step, Core.envStep, Core.finish, hx, this]
    · refine ⟨Label.selRecv, by simp, ?_⟩
      obtain ⟨r, rest, hr⟩ := List.exists_cons_of_ne_nil ho
      simp only [step, RunFunc.selRecv, hpc, Core.recv, hr]
      repeat' split
      all_goals simp
  | refill x =>
    simp only [PcInv, hpc] at hp
    obtain ⟨hclean, hcl, hcd, hiw, hf⟩ := hp
    refine ⟨Label.refill, by simp, ?_⟩
    have hroom : s.core.inputCh.length < cfg.workers :=
      h.core.room_input (by rw [← hclean.2.2]; omega)
    simp [step, RunFunc.refill, hpc, Core.send, hcl, hroom]
  | join e =>
    simp only [PcInv, hpc] at hp
    by_cases hex : s.core.exited = cfg.workers
    · exact ⟨Label.join, by simp, by simp [step, RunFunc.join, hpc, hex]⟩
    · obtain ⟨l, hl, hen⟩ := h.core.worker_progress hp.1 hex
      refine ⟨l, hl, ?_⟩
      cases l <;> simp_all [step, Core.envStep]
  | ret e => simp [hpc, Pc.isRet] at hret

/-- Along a schedule without `cancel` the context stays uncancelled. -/
theorem func_reach_nocancel {s : State I R E} {ls : List Label} (hnc : NoCancel ls)
    (h : exec (step cfg) (init cfg) ls = some s) : s.core.cancelled = false :=
  exec_induct (fun s : State I R E => s.core.cancelled = false) (fun l => l ≠ Label.cancel)
    (fun _ _ _ hc hl hs => (func_cancelled_step hl hs).trans hc) ls _ _ rfl
    (fun _ hl hEq => hnc (hEq ▸ hl)) h

/-- A stopped control loop stays stopped along every schedule, with everything it logged. -/
theorem func_stopped_exec {s t : State I R E} {ls : List Label} (hst : s.pc.stopped = true)
    (h : exec (step cfg) s ls = some t) :
    t.pc.stopped = true ∧ t.pc.outcome = s.pc.outcome ∧ t.collected = s.collected ∧
      t.core.dispatched = s.core.dispatched ∧ t.core.received = s.core.received ∧
      t.calls = s.calls := by
  have := exec_induct
    (fun u : State I R E => u.pc.stopped = true ∧ u.pc.outcome = s.pc.outcome ∧
      u.collected = s.collected ∧ u.core.dispatched = s.core.dispatched ∧
      u.core.received = s.core.received ∧ u.calls = s.calls) (fun _ => True)
    (fun u _ v hu _ hs => by
      obtain ⟨h1, h2, h3, h4, h5, h6⟩ := func_stopped_step hu.1 hs
      exact ⟨h1, h2.trans hu.2.1, h3.trans hu.2.2.1, h4.trans hu.2.2.2.1,
        h5.trans hu.2.2.2.2.1, h6.trans hu.2.2.2.2.2⟩)
    ls s t ⟨hst, rfl, rfl, rfl, rfl, rfl⟩ (fun _ _ => trivial) h
  exact this

theorem Inv.func_exec {s t : State I R E} {ls : List Label} (h : Inv cfg s)
    (hs : Corun.exec (RunFunc.step cfg) s ls = some t) : Inv cfg t :=
  exec_induct (Inv cfg) (fun _ => True) (fun _ _ _ hi _ hs => hi.func_step hs) ls _ _ h
    (fun _ _ => trivial) hs

/-- While `wg.Wait()` is pending some worker can act or the wait is over. -/
theorem func_progress_stopped {s : State I R E} (h : Inv cfg s) (hst : s.pc.stopped = true)
    (hret : s.pc.isRet = false) :
    ∃ l, l ≠ Label.cancel ∧ (step cfg s l).isSome = true := by
  have hp := h.pcinv
  cases hpc : s.pc with
  | join e =>
    simp only [PcInv, hpc] at hp
    by_cases hex : s.core.exited = cfg.workers
    · exact ⟨Label.join, by simp, by simp [step, RunFunc.join, hpc, hex]⟩
    · obtain ⟨l, hl, hen⟩ := h.core.worker_progress hp.1 hex
      refine ⟨l, hl, ?_⟩
      cases l <;> simp_all [step, Core.envStep]
  | ret e => simp [hpc, Pc.isRet] at hret
  | prime => simp [hpc, Pc.stopped] at hst
  | select => simp [hpc, Pc.stopped] at hst
  | refill u => simp [hpc, Pc.stopped] at hst

/-- A reachable state in which the closure has returned `e` func_settles on `e`. -/
theorem func_settles {t : State I R E} {e : Option E} (h : Inv cfg t)
    (hpc : t.pc.outcome = some e) : Settles cfg t e := by
  intro ms u hu
  have hst : t.pc.stopped = true := by
    cases hp : t.pc <;> simp [hp, Pc.outcome] at hpc <;> rfl
  obtain ⟨h1, h2, h3, h4, _, h6⟩ := func_stopped_exec hst hu
  have hlen := exec_length_le (potential 0) (fun v : State I R E => v.pc.stopped = true)
    (fun _ => True) (fun _ _ _ hv _ hs => (func_stopped_step hv hs).1)
    (fun _ _ _ hv _ hs => func_potential_step hs (Or.inr (func_stopped_step hv hs).2.2.2.1)) ms _ _ hst
    (fun _ _ => trivial) hu
  refine ⟨by omega, h3, h4, h6, func_progress_stopped (h.func_exec hu) h1, ?_⟩
  intro e' hu'
  rw [hu', hpc] at h2
  simpa [Pc.outcome] using h2

end RunFunc

/-! ## Lock-step simulation between `Run` and `RunFunc` fed from the same queue -/

section Sim
variable {I R E : Type} {cfg : Run.Cfg I R E} {fcfg : RunFunc.Cfg I R E}

theorem Feeds.workers (hfeed : Feeds cfg fcfg) : fcfg.workers = cfg.workers := by
  unfold RunFunc.Cfg.workers Run.Cfg.workers
  rw [hfeed.n, hfeed.numCPU]

/-- The adapter `sliceFetch` over the queue of a `Run` call feeds that queue. -/
theorem feeds_viaFetch [Inhabited I] (cfg : Run.Cfg I R E) : Feeds cfg cfg.viaFetch := by
  refine ⟨rfl, rfl, rfl, rfl, rfl, ?_, ?_⟩
  · intro k x hx
    simp [Run.Cfg.viaFetch, sliceFetch, hx]
  · intro k hk
    simp [Run.Cfg.viaFetch, sliceFetch, List.getElem?_eq_none hk]

theorem SimRel.at_start (hfeed : Feeds cfg fcfg) :
    SimRel cfg (Run.init cfg) (RunFunc.init fcfg) := by
  refine ⟨?_, Nat.zero_le _, ?_⟩
  · simp [Run.view, RunFunc.view, Run.init, RunFunc.init, hfeed.workers, Pc.forget]
  · show _ ∧ _ ∧ _
    exact ⟨rfl, rfl, rfl⟩

theorem sim_env {s : Run.State I R E} {t : RunFunc.State I R E} (hfeed : Feeds cfg fcfg)
    (hrel : SimRel cfg s t) (l : Label) :
    SimOut cfg ((s.core.envStep cfg.workers cfg.solve l).map fun c => { s with core := c })
      ((t.core.envStep fcfg.workers fcfg.solve l).map fun c => { t with core := c }) := by
  obtain ⟨hv, hle, hpc⟩ := hrel
  have hcore : s.core = t.core := congrArg View.core hv
  have hp : s.pc = t.pc.forget := congrArg View.pc hv
  have hcomp : s.complete = t.complete := congrArg View.complete hv
  have hcol : s.collected = t.collected := congrArg View.collected hv
  rw [hfeed.workers, hfeed.solve, ← hcore]
  cases hstep : s.core.envStep cfg.workers cfg.solve l with
  | none => trivial
  | some c =>
    refine ⟨?_, hle, ?_⟩
    · simp [Run.view, RunFunc.view, hp, hcomp, hcol]
    · simpa using hpc

theorem sim_prime {s : Run.State I R E} {t : RunFunc.State I R E} (hfeed : Feeds cfg fcfg)
    (hinv : Run.Inv cfg s) (hrel : SimRel cfg s t) :
    SimOut cfg (Run.prime cfg s) (RunFunc.prime fcfg t) := by
  obtain ⟨fn, fcpu, ffetch, fsolve, fcollect, fctx⟩ := fcfg
  obtain ⟨h1, h2, h3, h4, h5, hitems, hexh⟩ := hfeed
  dsimp only at h1 h2 h3 h4 h5 hitems hexh
  subst h1 h2 h3 h4 h5
  have hwk : RunFunc.Cfg.workers
      { n := cfg.n, numCPU := cfg.numCPU, fetch := ffetch, solve := cfg.solve,
        collect := cfg.collect, ctxErr := cfg.ctxErr } = cfg.workers := rfl
  obtain ⟨hv, hle, hpc⟩ := hrel
  have hil := hinv.index_le
  obtain ⟨sc, spc, scomp, sidx, scol⟩ := s
  obtain ⟨tc, tpc, tcomp, tcount, tf, k, tcol⟩ := t
  simp only [Run.view, RunFunc.view, View.mk.injEq] at hv
  obtain ⟨rfl, rfl, rfl, rfl⟩ := hv
  cases tpc with
  | prime =>
    simp only at hpc hle hil
    obtain ⟨rfl, rfl, rfl⟩ := hpc
    simp only [Run.prime, RunFunc.prime, Pc.forget, hwk]
    by_cases hw : k < cfg.workers
    · by_cases hL : k < cfg.queue.length
      · have hf : ffetch k = ⟨cfg.queue[k], true, none⟩ :=
          hitems k _ (List.getElem?_eq_getElem hL)
        simp only [hw, hL, and_self, if_true, hf, List.getElem?_eq_getElem hL]
        cases hsend : sc.send cfg.workers cfg.queue[k] with
        | none => simp [SimOut]
        | some c =>
          simp only [Option.map_some', SimOut]
          refine ⟨rfl, ?_, ?_⟩
          · show k + 1 ≤ _
            omega
          · exact ⟨rfl, rfl, rfl⟩
      · obtain ⟨hf1, hf2⟩ := hexh k (by omega)
        simp only [hw, hL, and_false, if_false, if_true, hf1, hf2, Bool.false_eq_true, SimOut]
        refine ⟨rfl, hle, ?_⟩
        show _ ∧ _
        exact ⟨rfl, Or.inr ⟨rfl, by simp only; omega, by simp only; omega⟩⟩
    · simp only [hw, false_and, if_false, SimOut]
      refine ⟨rfl, hle, ?_⟩
      show _ ∧ _
      exact ⟨rfl, Or.inl ⟨rfl, rfl⟩⟩
  | select => simp [Run.prime, RunFunc.prime, Pc.forget, SimOut]
  | refill x => simp [Run.prime, RunFunc.prime, Pc.forget, SimOut]
  | join e => simp [Run.prime, RunFunc.prime, Pc.forget, SimOut]
  | ret e => simp [Run.prime, RunFunc.prime, Pc.forget, SimOut]

theorem sim_selDone {s : Run.State I R E} {t : RunFunc.State I R E} (hfeed : Feeds cfg fcfg)
    (hrel : SimRel cfg s t) :
    SimOut cfg (Run.selDone cfg s) (RunFunc.selDone fcfg t) := by
  obtain ⟨fn, fcpu, ffetch, fsolve, fcollect, fctx⟩ := fcfg
  obtain ⟨h1, h2, h3, h4, h5, hitems, hexh⟩ := hfeed
  dsimp only at h1 h2 h3 h4 h5 hitems hexh
  subst h1 h2 h3 h4 h5
  have hwk : RunFunc.Cfg.workers
      { n := cfg.n, numCPU := cfg.numCPU, fetch := ffetch, solve := cfg.solve,
        collect := cfg.collect, ctxErr := cfg.ctxErr } = cfg.workers := rfl
  obtain ⟨hv, hle, hpc⟩ := hrel
  obtain ⟨sc, spc, scomp, sidx, scol⟩ := s
  obtain ⟨tc, tpc, tcomp, tcount, tf, tcalls, tcol⟩ := t
  simp only [Run.view, RunFunc.view, View.mk.injEq] at hv
  obtain ⟨rfl, rfl, rfl, rfl⟩ := hv
  cases tpc with
  | select =>
    simp only [Run.selDone, RunFunc.selDone, Pc.forget]
    cases hc : sc.cancelled with
    | false => simp [SimOut]
    | true =>
      simp only [if_true, SimOut]
      exact ⟨rfl, hle, trivial⟩
  | prime => simp [Run.selDone, RunFunc.selDone, Pc.forget, SimOut]
  | refill x => simp [Run.selDone, RunFunc.selDone, Pc.forget, SimOut]
  | join e => simp [Run.selDone, RunFunc.selDone, Pc.forget, SimOut]
  | ret e => simp [Run.selDone, RunFunc.selDone, Pc.forget, SimOut]

theorem sim_refill {s : Run.State I R E} {t : RunFunc.State I R E} (hfeed : Feeds cfg fcfg)
    (hrel : SimRel cfg s t) :
    SimOut cfg (Run.refill cfg s) (RunFunc.refill fcfg t) := by
  obtain ⟨fn, fcpu, ffetch, fsolve, fcollect, fctx⟩ := fcfg
  obtain ⟨h1, h2, h3, h4, h5, hitems, hexh⟩ := hfeed
  dsimp only at h1 h2 h3 h4 h5 hitems hexh
  subst h1 h2 h3 h4 h5
  have hwk : RunFunc.Cfg.workers
      { n := cfg.n, numCPU := cfg.numCPU, fetch := ffetch, solve := cfg.solve,
        collect := cfg.collect, ctxErr := cfg.ctxErr } = cfg.workers := rfl
  obtain ⟨hv, hle, hpc⟩ := hrel
  obtain ⟨sc, spc, scomp, sidx, scol⟩ := s
  obtain ⟨tc, tpc, tcomp, tcount, tf, tcalls, tcol⟩ := t
  simp only [Run.view, RunFunc.view, View.mk.injEq] at hv
  obtain ⟨rfl, rfl, rfl, rfl⟩ := hv
  cases tpc with
  | refill x =>
    simp only at hpc hle
    obtain ⟨rfl, hx, rfl, rfl⟩ := hpc
    simp only [Run.refill, RunFunc.refill, Pc.forget, hwk, hx]
    cases hsend : sc.send cfg.workers x with
    | none => simp [SimOut]
    | some c =>
      simp only [Option.map_some', SimOut]
      refine ⟨rfl, hle, ?_⟩
      show _ ∧ _
      exact ⟨rfl, Or.inl ⟨rfl, rfl⟩⟩
  | prime => simp [Run.refill, RunFunc.refill, Pc.forget, SimOut]
  | select => simp [Run.refill, RunFunc.refill, Pc.forget, SimOut]
  | join e => simp [Run.refill, RunFunc.refill, Pc.forget, SimOut]
  | ret e => simp [Run.refill, RunFunc.refill, Pc.forget, SimOut]

theorem sim_join {s : Run.State I R E} {t : RunFunc.State I R E} (hfeed : Feeds cfg fcfg)
    (hrel : SimRel cfg s t) :
    SimOut cfg (Run.join cfg s) (RunFunc.join fcfg t) := by
  obtain ⟨fn, fcpu, ffetch, fsolve, fcollect, fctx⟩ := fcfg
  obtain ⟨h1, h2, h3, h4, h5, hitems, hexh⟩ := hfeed
  dsimp only at h1 h2 h3 h4 h5 hitems hexh
  subst h1 h2 h3 h4 h5
  have hwk : RunFunc.Cfg.workers
      { n := cfg.n, numCPU := cfg.numCPU, fetch := ffetch, solve := cfg.solve,
        collect := cfg.collect, ctxErr := cfg.ctxErr } = cfg.workers := rfl
  obtain ⟨hv, hle, hpc⟩ := hrel
  obtain ⟨sc, spc, scomp, sidx, scol⟩ := s
  obtain ⟨tc, tpc, tcomp, tcount, tf, tcalls, tcol⟩ := t
  simp only [Run.view, RunFunc.view, View.mk.injEq] at hv
  obtain ⟨rfl, rfl, rfl, rfl⟩ := hv
  cases tpc with
  | join e =>
    simp only [Run.join, RunFunc.join, Pc.forget, hwk]
    by_cases hex : sc.exited = cfg.workers
    · simp only [hex, if_true, SimOut]
      exact ⟨rfl, hle, trivial⟩
    · simp [hex, SimOut]
  | prime => simp [Run.join, RunFunc.join, Pc.forget, SimOut]
  | select => simp [Run.join, RunFunc.join, Pc.forget, SimOut]
  | refill x => simp [Run.join, RunFunc.join, Pc.forget, SimOut]
  | ret e => simp [Run.join, RunFunc.join, Pc.forget, SimOut]

theorem sim_selRecv {s : Run.State I R E} {t : RunFunc.State I R E} (hfeed : Feeds cfg fcfg)
    (hinv : Run.Inv cfg s) (hrel : SimRel cfg s t) :
    SimOut cfg (Run.selRecv cfg s) (RunFunc.selRecv fcfg t) := by
  obtain ⟨fn, fcpu, ffetch, fsolve, fcollect, fctx⟩ := fcfg
  obtain ⟨h1, h2, h3, h4, h5, hitems, hexh⟩ := hfeed
  dsimp only at h1 h2 h3 h4 h5 hitems hexh
  subst h1 h2 h3 h4 h5
  have hwk : RunFunc.Cfg.workers
      { n := cfg.n, numCPU := cfg.numCPU, fetch := ffetch, solve := cfg.solve,
        collect := cfg.collect, ctxErr := cfg.ctxErr } = cfg.workers := rfl
  obtain ⟨hv, hle, hpc⟩ := hrel
  have hil := hinv.index_le
  have hcnt := hinv.core.count
  have hidx := hinv.idx
  have hp := hinv.pcinv
  obtain ⟨sc, spc, scomp, sidx, scol⟩ := s
  obtain ⟨tc, tpc, tcomp, tcount, tf, tcalls, tcol⟩ := t
  simp only [Run.view, RunFunc.view, View.mk.injEq] at hv
  obtain ⟨rfl, rfl, rfl, rfl⟩ := hv
  cases tpc with
  | select =>
    simp only [Run.PcInv, Pc.forget, Run.Clean] at hp
    simp only at hpc hle hil hcnt hidx
    obtain ⟨⟨_, _, hcr⟩, _, _, _, _⟩ := hp
    obtain ⟨hci, hfc⟩ := hpc
    simp only [Run.selRecv, RunFunc.selRecv, Pc.forget]
    cases hrecv : sc.recv with
    | none => simp [SimOut]
    | some rc =>
      obtain ⟨r, c⟩ := rc
      obtain ⟨rest, hout, _⟩ := Core.recv_some hrecv
      have hpos : scomp + 1 ≤ sidx := by
        rw [hout] at hcnt
        simp only [List.length_cons] at hcnt
        omega
      simp only []
      cases he : r.err with
      | some e =>
        simp only [SimOut]
        exact ⟨rfl, hle, trivial⟩
      | none =>
        simp only []
        show SimOut cfg
          (match cfg.collect scol r.val with
            | some e => _
            | none => _)
          (match cfg.collect scol r.val with
            | some e => _
            | none => _)
        cases hcoll : cfg.collect scol r.val with
        | some e =>
          simp only [SimOut]
          exact ⟨rfl, hle, trivial⟩
        | none =>
          simp only []
          by_cases hge : scomp + 1 ≥ cfg.queue.length
          · have hge2 : scomp + 1 ≥ tcount := by omega
            obtain ⟨hf1, hf2⟩ := hexh tcalls (by rcases hfc with h | h <;> omega)
            cases tf with
            | true =>
              simp only [hge, hge2, and_self, if_true, SimOut]
              exact ⟨rfl, hle, trivial⟩
            | false =>
              simp only [hge, hge2, if_true, hf1, hf2, Bool.false_eq_true, false_and, if_false,
                SimOut]
              exact ⟨rfl, hle, trivial⟩
          · by_cases hlt : sidx < cfg.queue.length
            · have htf : tf = false := by
                rcases hfc with h | h
                · exact h.1
                · omega
              have hcalls : tcalls = sidx := by
                rcases hfc with h | h
                · exact h.2
                · omega
              subst htf hcalls
              have hfe : ffetch tcalls = ⟨cfg.queue[tcalls], true, none⟩ :=
                hitems tcalls _ (List.getElem?_eq_getElem hlt)
              simp only [hge, hlt, if_true, hfe, Bool.false_eq_true, false_and, if_false,
                SimOut]
              refine ⟨rfl, ?_, ?_⟩
              · show tcount + 1 ≤ _
                omega
              · show _ ∧ _ ∧ _ ∧ _
                exact ⟨by simp only; omega, List.getElem?_eq_getElem hlt, rfl, rfl⟩
            · have hfull : sidx = cfg.queue.length := by omega
              obtain ⟨hf1, hf2⟩ := hexh tcalls (by rcases hfc with h | h <;> omega)
              have hge2 : ¬ (scomp + 1 ≥ tcount) := by omega
              simp only [hge, hlt, hge2, and_false, if_false, hf1, hf2, Bool.false_eq_true,
                SimOut]
              refine ⟨rfl, hle, ?_⟩
              show _ ∧ _
              exact ⟨hci, Or.inr ⟨rfl, hfull, by simp only; rcases hfc with h | h <;> omega⟩⟩
  | prime => simp [Run.selRecv, RunFunc.selRecv, Pc.forget, SimOut]
  | refill x => simp [Run.selRecv, RunFunc.selRecv, Pc.forget, SimOut]
  | join e => simp [Run.selRecv, RunFunc.selRecv, Pc.forget, SimOut]
  | ret e => simp [Run.selRecv, RunFunc.selRecv, Pc.forget, SimOut]

theorem sim_step {s : Run.State I R E} {t : RunFunc.State I R E} (hfeed : Feeds cfg fcfg)
    (hinv : Run.Inv cfg s) (hrel : SimRel cfg s t) (l : Label) :
    SimOut cfg (Run.step cfg s l) (RunFunc.step fcfg t l) := by
  cases l with
  | prime => exact sim_prime hfeed hinv hrel
  | selDone => exact sim_selDone hfeed hrel
  | selRecv => exact sim_selRecv hfeed hinv hrel
  | refill => exact sim_refill hfeed hrel
  | join => exact sim_join hfeed hrel
  | cancel => exact sim_env hfeed hrel Label.cancel
  | take => exact sim_env hfeed hrel Label.take
  | finish j => exact sim_env hfeed hrel (Label.finish j)
  | exit => exact sim_env hfeed hrel Label.exit

/-- Under one schedule the two calls are blocked together or stay related. -/
theorem sim_exec (hfeed : Feeds cfg fcfg) (ls : List Label) :
    ∀ (s : Run.State I R E) (t : RunFunc.State I R E), Run.Inv cfg s → SimRel cfg s t →
      SimOut cfg (exec (Run.step cfg) s ls) (exec (RunFunc.step fcfg) t ls) := by
  induction ls with
  | nil =>
    intro s t _ hrel
    exact hrel
  | cons l ls ih =>
    intro s t hinv hrel
    have h := sim_step hfeed hinv hrel l
    simp only [exec]
    cases hs : Run.step cfg s l with
    | none =>
      cases ht : RunFunc.step fcfg t l with
      | none => simp [SimOut]
      | some t' => simp [hs, ht, SimOut] at h
    | some s' =>
      cases ht : RunFunc.step fcfg t l with
      | none => simp [hs, ht, SimOut] at h
      | some t' =>
        simp only [hs, ht, SimOut] at h
        simpa using ih s' t' (hinv.run_step hs) h

/-- Every reachable state of a `RunFunc` call fed from the queue is related to the state
`Run` reaches under the same schedule. -/
theorem sim_reach (hfeed : Feeds cfg fcfg) {ls : List Label} {t : RunFunc.State I R E}
    (ht : exec (RunFunc.step fcfg) (RunFunc.init fcfg) ls = some t) :
    ∃ s, exec (Run.step cfg) (Run.init cfg) ls = some s ∧ SimRel cfg s t := by
  have h := sim_exec hfeed ls (Run.init cfg) (RunFunc.init fcfg) (Run.Inv.run_init cfg)
    (SimRel.at_start hfeed)
  rw [ht] at h
  cases hs : exec (Run.step cfg) (Run.init cfg) ls with
  | none => simp [hs, SimOut] at h
  | some s =>
    simp only [hs, SimOut] at h
    exact ⟨s, rfl, h⟩

end Sim

/-! ## An empty source parks the call -/

section Parked
variable {I R E : Type}

/-- On the empty queue the only step of `Run` that is ever enabled, short of a
cancellation, leaves the first loop; at the `select` nothing is enabled. -/
theorem run_parked_step {cfg : Run.Cfg I R E} (hq : cfg.queue = []) {s t : Run.State I R E}
    {l : Label} (hp : Run.Parked cfg s) (hl : l ≠ Label.cancel)
    (hs : Run.step cfg s l = some t) :
    s.pc = Pc.prime ∧ Run.Parked cfg t ∧ t.pc = Pc.select := by
  obtain ⟨hc, hi, hcol, hpc⟩ := hp
  have hcan : s.core.cancelled = false := by rw [hc]; rfl
  rcases hpc with hpc | hpc
  · cases l with
    | cancel => exact absurd rfl hl
    | prime =>
      simp only [Run.step, Run.prime, hpc, hq, hi, List.length_nil, Nat.lt_irrefl, and_false,
        if_false, Option.some.injEq] at hs
      subst hs
      exact ⟨hpc, ⟨hc, rfl, hcol, Or.inr rfl⟩, rfl⟩
    | take => simp [Run.step, Core.envStep, Core.take, hc, Core.init] at hs
    | finish j => simp [Run.step, Core.envStep, Core.finish, hc, Core.init] at hs
    | exit => simp [Run.step, Core.envStep, Core.exit, hc, Core.init] at hs
    | selDone => simp [Run.step, Run.selDone, hpc] at hs
    | selRecv => simp [Run.step, Run.selRecv, hpc] at hs
    | refill => simp [Run.step, Run.refill, hpc] at hs
    | join => simp [Run.step, Run.join, hpc] at hs
  · exfalso
    cases l with
    | cancel => exact hl rfl
    | prime => simp [Run.step, Run.prime, hpc] at hs
    | take => simp [Run.step, Core.envStep, Core.take, hc, Core.init] at hs
    | finish j => simp [Run.step, Core.envStep, Core.finish, hc, Core.init] at hs
    | exit => simp [Run.step, Core.envStep, Core.exit, hc, Core.init] at hs
    | selDone => simp [Run.step, Run.selDone, hpc, hcan] at hs
    | selRecv => simp [Run.step, Run.selRecv, hpc, Core.recv, hc, Core.init] at hs
    | refill => simp [Run.step, Run.refill, hpc] at hs
    | join => simp [Run.step, Run.join, hpc] at hs

/-- With a `fetch` whose first call reports exhaustion the only step of `RunFunc` that is
ever enabled, short of a cancellation, leaves the first loop; at the `select` nothing is
enabled. -/
theorem func_parked_step {cfg : RunFunc.Cfg I R E}
    (hf : (cfg.fetch 0).ok = false ∧ (cfg.fetch 0).err = none) {s t : RunFunc.State I R E}
    {l : Label} (hp : RunFunc.Parked cfg s) (hl : l ≠ Label.cancel)
    (hs : RunFunc.step cfg s l = some t) :
    s.pc = Pc.prime ∧ RunFunc.Parked cfg t ∧ t.pc = Pc.select := by
  obtain ⟨hc, hcol, hpc⟩ := hp
  have hcan : s.core.cancelled = false := by rw [hc]; rfl
  rcases hpc with ⟨hpc, hcount, hcalls⟩ | ⟨hpc, hcalls⟩
  · cases l with
    | cancel => exact absurd rfl hl
    | prime =>
      simp only [RunFunc.step, RunFunc.prime, hpc, hcalls, hf.1, hf.2] at hs
      split at hs
      · simp only [Bool.false_eq_true, if_false, Option.some.injEq] at hs
        subst hs
        exact ⟨hpc, ⟨hc, hcol, Or.inr ⟨rfl, by simp⟩⟩, rfl⟩
      · simp only [Option.some.injEq] at hs
        subst hs
        exact ⟨hpc, ⟨hc, hcol, Or.inr ⟨rfl, by simp [hcalls]⟩⟩, rfl⟩
    | take => simp [RunFunc.step, Core.envStep, Core.take, hc, Core.init] at hs
    | finish j => simp [RunFunc.step, Core.envStep, Core.finish, hc, Core.init] at hs
    | exit => simp [RunFunc.step, Core.envStep, Core.exit, hc, Core.init] at hs
    | selDone => simp [RunFunc.step, RunFunc.selDone, hpc] at hs
    | selRecv => simp [RunFunc.step, RunFunc.selRecv, hpc] at hs
    | refill => simp [RunFunc.step, RunFunc.refill, hpc] at hs
    | join => simp [RunFunc.step, RunFunc.join, hpc] at hs
  · exfalso
    cases l with
    | cancel => exact hl rfl
    | prime => simp [RunFunc.step, RunFunc.prime, hpc] at hs
    | take => simp [RunFunc.step, Core.envStep, Core.take, hc, Core.init] at hs
    | finish j => simp [RunFunc.step, Core.envStep, Core.finish, hc, Core.init] at hs
    | exit => simp [RunFunc.step, Core.envStep, Core.exit, hc, Core.init] at hs
    | selDone => simp [RunFunc.step, RunFunc.selDone, hpc, hcan] at hs
    | selRecv => simp [RunFunc.step, RunFunc.selRecv, hpc, Core.recv, hc, Core.init] at hs
    | refill => simp [RunFunc.step, RunFunc.refill, hpc] at hs
    | join => simp [RunFunc.step, RunFunc.join, hpc] at hs

end Parked

/-! ## `RunFunc` on a source that fails -/

section FailsAt
variable {I R E : Type} {cfg : RunFunc.Cfg I R E}

/-- Every buffered result is the result of a dispatched item. -/
theorem CoreInv.output_mem {n : Nat} {solve : I → R × Option E} {c : Core I R E}
    (h : CoreInv n solve c) {r : output R E} (hr : r ∈ c.outputCh) :
    ∃ x ∈ c.dispatched, result solve x = r := by
  have h1 : r ∈ c.received ++ c.outputCh ++ (c.busy ++ c.inputCh).map (result solve) := by
    simp [hr]
  obtain ⟨x, hx, rfl⟩ := List.mem_map.mp (h.cons.subset h1)
  exact ⟨x, hx, rfl⟩

theorem range_map_snoc (f : Nat → I) (m : Nat) :
    (List.range (m + 1)).map f = (List.range m).map f ++ [f m] := by
  rw [List.range_succ, List.map_append]
  rfl

theorem failsAt_init (cfg : RunFunc.Cfg I R E) (k : Nat) (e : E) :
    RunFunc.FailsAt cfg k e (RunFunc.init cfg) := by
  refine ⟨rfl, rfl, Nat.zero_le _, ?_⟩
  show _ ∧ _
  exact ⟨rfl, rfl⟩

/-- Sending the next fetched item keeps the dispatched items in step with `fetch`. -/
theorem failsAt_send {k : Nat} {c c' : Core I R E} {x : I}
    (hd : c.dispatched = (List.range c.dispatched.length).map (fun j => (cfg.fetch j).item))
    (hx : x = (cfg.fetch c.dispatched.length).item) (hlt : c.dispatched.length < k)
    (hs : c.send cfg.workers x = some c') :
    c'.cancelled = c.cancelled ∧
    c'.dispatched = (List.range c'.dispatched.length).map (fun j => (cfg.fetch j).item) ∧
    c'.dispatched.length = c.dispatched.length + 1 ∧ c'.dispatched.length ≤ k := by
  obtain ⟨_, _, rfl⟩ := Core.send_some hs
  refine ⟨rfl, ?_, by simp, by simp; omega⟩
  simp only [List.length_append, List.length_singleton]
  rw [range_map_snoc, ← hd, hx]

theorem failsAt_step {k : Nat} {e : E}
    (hitems : ∀ j, j < k → (cfg.fetch j).ok = true ∧ (cfg.fetch j).err = none)
    (hfail : (cfg.fetch k).err = some e)
    (hsolve : ∀ j, j < k → (cfg.solve (cfg.fetch j).item).2 = none)
    (hcollect : ∀ pre j, j < k → cfg.collect pre (cfg.solve (cfg.fetch j).item).1 = none)
    {s t : RunFunc.State I R E} {l : Label} (hinv : RunFunc.Inv cfg s)
    (hfa : RunFunc.FailsAt cfg k e s) (hl : l ≠ Label.cancel)
    (hs : RunFunc.step cfg s l = some t) : RunFunc.FailsAt cfg k e t := by
  obtain ⟨hcan, hdisp, hdk, hpcf⟩ := hfa
  have hp := hinv.pcinv
  have hfetch : ∀ m, m ≤ k → (cfg.fetch m).err ≠ none → m = k := by
    intro m hm hne
    by_contra hmk
    exact hne (hitems m (by omega)).2
  rcases RunFunc.func_step_cases hs with ⟨_, h1⟩ | ⟨_, h1⟩ | ⟨_, h1⟩ | ⟨_, h1⟩ | ⟨_, h1⟩ |
    ⟨c, h1, rfl⟩
  · unfold RunFunc.prime at h1
    split at h1
    · rename_i hpc
      simp only [RunFunc.FailsAt, hpc] at hpcf
      simp only [RunFunc.PcInv, hpc] at hp
      obtain ⟨hcalls, hf⟩ := hpcf
      split at h1
      · split at h1
        · rename_i e' he'
          simp only [Option.some.injEq] at h1
          subst h1
          have hk : s.calls = k := hfetch _ (by omega) (by rw [he']; simp)
          refine ⟨hcan, hdisp, hdk, ?_⟩
          show some e' = some e ∧ s.calls + 1 = k + 1 ∧ s.core.dispatched.length = k
          rw [hk, hfail] at he'
          exact ⟨he'.symm, by omega, by omega⟩
        · rename_i he'
          have hne : s.calls ≠ k := by
            intro hk
            rw [hk, hfail] at he'
            simp at he'
          have hlt : s.calls < k := by omega
          split at h1
          · simp only [Option.map_eq_some'] at h1
            obtain ⟨c, hsend, rfl⟩ := h1
            have hlt2 : s.core.dispatched.length < k := by omega
            obtain ⟨g1, g2, g3, g4⟩ := failsAt_send hdisp (by rw [hcalls]) hlt2 hsend
            refine ⟨g1.trans hcan, g2, g4, ?_⟩
            rw [hpc]
            show s.calls + 1 = c.dispatched.length ∧ s.fetched = false
            exact ⟨by omega, hf⟩
          · rename_i hok
            exact absurd (hitems _ hlt).1 hok
      · simp only [Option.some.injEq] at h1
        subst h1
        refine ⟨hcan, hdisp, hdk, ?_⟩
        show _ ∧ _
        exact ⟨hcalls, hf⟩
    all_goals simp at h1
  · unfold RunFunc.selDone at h1
    split at h1
    · simp [hcan] at h1
    · simp at h1
  · unfold RunFunc.selRecv at h1
    split at h1
    · rename_i hpc
      simp only [RunFunc.FailsAt, hpc] at hpcf
      simp only [RunFunc.PcInv, hpc] at hp
      obtain ⟨hcalls, hf⟩ := hpcf
      split at h1
      · simp at h1
      · rename_i r c hrecv
        obtain ⟨rest, hout, hc⟩ := Core.recv_some hrecv
        have hccan : c.cancelled = false := by rw [hc]; exact hcan
        have hcd : c.dispatched = s.core.dispatched := by rw [hc]
        obtain ⟨x, hx, hxr⟩ := hinv.core.output_mem (by rw [hout]; exact List.mem_cons_self _ _)
        rw [hdisp] at hx
        obtain ⟨j, hj, rfl⟩ := List.mem_map.mp hx
        have hjk : j < k := by
          have := List.mem_range.mp hj
          omega
        have herr : r.err = none := by rw [← hxr]; exact hsolve j hjk
        have hval : cfg.collect s.collected r.val = none := by
          rw [← hxr]; exact hcollect _ j hjk
        rw [herr] at h1
        simp only [hval, hf, Bool.false_eq_true, false_and, if_false] at h1
        split at h1
        · rename_i e' he'
          simp only [Option.some.injEq] at h1
          subst h1
          have hk : s.calls = k := hfetch _ (by omega) (by rw [he']; simp)
          refine ⟨hccan, ?_, ?_, ?_⟩
          · show c.dispatched = List.map (fun j => (cfg.fetch j).item) (List.range c.dispatched.length)
            rw [hcd]
            exact hdisp
          · show c.dispatched.length ≤ k
            rw [hcd]
            exact hdk
          · show some e' = some e ∧ s.calls + 1 = k + 1 ∧ c.dispatched.length = k
            rw [hk, hfail] at he'
            rw [hcd]
            exact ⟨he'.symm, by omega, by omega⟩
        · rename_i he'
          have hne : s.calls ≠ k := by
            intro hk
            rw [hk, hfail] at he'
            simp at he'
          have hlt : s.calls < k := by omega
          simp only [(hitems _ hlt).1, if_true, Option.some.injEq] at h1
          subst h1
          refine ⟨hccan, ?_, ?_, ?_⟩
          · show c.dispatched = List.map (fun j => (cfg.fetch j).item) (List.range c.dispatched.length)
            rw [hcd]
            exact hdisp
          · show c.dispatched.length ≤ k
            rw [hcd]
            exact hdk
          · show s.calls + 1 = c.dispatched.length + 1 ∧ s.calls + 1 ≤ k ∧ false = false ∧
              (cfg.fetch s.calls).item = (cfg.fetch c.dispatched.length).item
            rw [hcd, hcalls]
            exact ⟨rfl, by omega, rfl, rfl⟩
    all_goals simp at h1
  · unfold RunFunc.refill at h1
    split at h1
    · rename_i x hpc
      simp only [RunFunc.FailsAt, hpc] at hpcf
      obtain ⟨hcalls, hck, hf, hx⟩ := hpcf
      simp only [Option.map_eq_some'] at h1
      obtain ⟨c, hsend, rfl⟩ := h1
      have hlt2 : s.core.dispatched.length < k := by omega
      obtain ⟨g1, g2, g3, g4⟩ := failsAt_send hdisp hx hlt2 hsend
      refine ⟨g1.trans hcan, g2, g4, ?_⟩
      show s.calls = c.dispatched.length ∧ s.fetched = false
      exact ⟨by omega, hf⟩
    all_goals simp at h1
  · unfold RunFunc.join at h1
    split at h1
    · rename_i r hpc
      simp only [RunFunc.FailsAt, hpc] at hpcf
      split at h1
      · simp only [Option.some.injEq] at h1
        subst h1
        exact ⟨hcan, hdisp, hdk, hpcf⟩
      · simp at h1
    · simp at h1
  · obtain ⟨hd, _, _, _, hcn, _⟩ := Core.envStep_frame h1
    refine ⟨(hcn hl).trans hcan, ?_, ?_, ?_⟩
    · show c.dispatched = List.map (fun j => (cfg.fetch j).item) (List.range c.dispatched.length)
      rw [hd]
      exact hdisp
    · show c.dispatched.length ≤ k
      rw [hd]
      exact hdk
    · cases hpc : s.pc <;> simp only [hpc] at hpcf ⊢ <;> rw [hd] <;> exact hpcf

end FailsAt

/-! ## The claims -/

section Claims
variable {I R E : Type}

/-- C1: for a non-empty queue, `n >= 1`, a context that is never cancelled, and `solve` and
`collect` succeeding on every item, `Run` returns nil under every completion order with
`collect` invoked exactly once per item. Stated over all schedules without `cancel`: each
has at most `4 * len(queue) + n + 4` steps, a call that has not returned can always take a
step, and a call that has returned returned `nil` with the values handed to `collect`
being a permutation of `solve(x)` for `x` in the queue. -/
theorem run_success (cfg : Run.Cfg I R E) (hn : 1 ≤ cfg.n) (hq : cfg.queue ≠ [])
    (hsolve : ∀ x ∈ cfg.queue, (cfg.solve x).2 = none)
    (hcollect : ∀ pre, ∀ x ∈ cfg.queue, cfg.collect pre (cfg.solve x).1 = none)
    (ls : List Label) (s : Run.State I R E) (hnc : NoCancel ls)
    (hs : exec (Run.step cfg) (Run.init cfg) ls = some s) :
    ls.length ≤ 4 * cfg.queue.length + cfg.n.toNat + 4 ∧
    (s.pc.isRet = false → ∃ l, l ≠ Label.cancel ∧ (Run.step cfg s l).isSome = true) ∧
    (∀ e, s.pc = Pc.ret e →
      e = none ∧ s.collected.Perm (cfg.queue.map fun x => (cfg.solve x).1)) := by
  have hinv := Run.Inv.run_reach hs
  obtain ⟨hw, hw1⟩ := Run.run_workers_of_pos hn
  refine ⟨by have := Run.length_le hs; omega, Run.run_progress hinv hw1 hq, ?_⟩
  intro e hpc
  have hp := hinv.pcinv
  simp only [Run.PcInv, hpc] at hp
  obtain ⟨_, _, hout, _⟩ := hp
  cases e with
  | none => exact ⟨rfl, (hinv.all_received hout.1 hout.2).2⟩
  | some e =>
    exfalso
    rcases hout with ⟨hc, _⟩ | ⟨r, hr, he⟩ | ⟨pre, r, hr, _, he⟩
    · simp [Run.run_reach_nocancel hnc hs] at hc
    · obtain ⟨x, hx, rfl⟩ := hinv.received_mem hr
      simp [result, hsolve x hx] at he
    · obtain ⟨x, hx, rfl⟩ := hinv.received_mem hr
      simp [result, hcollect pre x hx] at he

/-- Witness of C1 on TestRun: queue 1..5, `n = 2`, `solve(x) = 2x`; under a schedule with
out-of-order completions the call returns nil and the collected values sum to 30. -/
theorem run_success_witness :
    ∃ s, exec (Run.step testRun) (Run.init testRun) testRunSchedule = some s ∧
      s.pc = Pc.ret none ∧ s.collected = [4, 2, 6, 8, 10] ∧ s.collected.sum = 30 := by
  obtain ⟨s, hs, hpc, hcol⟩ : ∃ s, exec (Run.step testRun) (Run.init testRun) testRunSchedule
      = some s ∧ s.pc = Pc.ret none ∧ s.collected = [4, 2, 6, 8, 10] := ⟨_, rfl, rfl, rfl⟩
  have h := run_success testRun (by decide) (by simp [testRun]) (by simp [testRun])
    (by simp [testRun]) testRunSchedule s (by decide) hs
  have hperm := (h.2.2 none hpc).2
  refine ⟨s, hs, hpc, hcol, ?_⟩
  rw [hperm.sum_eq]
  rfl

/-- C2: for a non-empty queue, `n >= 1`, a context that is never cancelled and a `collect`
that always succeeds, if `solve` fails for exactly one item (position `i`, error `e`), then
under every completion order `Run` returns exactly `e`: each schedule without `cancel` has
at most `4 * len(queue) + n + 4` steps, a call that has not returned can always take a
step, a call that has returned returned `e`; and once a failed result has been received,
no later step dispatches an item. -/
theorem run_single_failure (cfg : Run.Cfg I R E) (hn : 1 ≤ cfg.n) (i : Nat) (e : E)
    (hi : i < cfg.queue.length) (hfail : (cfg.solve cfg.queue[i]).2 = some e)
    (hothers : ∀ j (hj : j < cfg.queue.length), j ≠ i → (cfg.solve cfg.queue[j]).2 = none)
    (hcollect : ∀ pre v, cfg.collect pre v = none)
    (ls : List Label) (s : Run.State I R E) (hnc : NoCancel ls)
    (hs : exec (Run.step cfg) (Run.init cfg) ls = some s) :
    ls.length ≤ 4 * cfg.queue.length + cfg.n.toNat + 4 ∧
    (s.pc.isRet = false → ∃ l, l ≠ Label.cancel ∧ (Run.step cfg s l).isSome = true) ∧
    (∀ e', s.pc = Pc.ret e' → e' = some e) ∧
    ((∃ r ∈ s.core.received, r.err ≠ none) → ∀ ms t, exec (Run.step cfg) s ms = some t →
      t.core.dispatched = s.core.dispatched) := by
  have hinv := Run.Inv.run_reach hs
  obtain ⟨hw, hw1⟩ := Run.run_workers_of_pos hn
  have hq : cfg.queue ≠ [] := List.ne_nil_of_length_pos (by omega)
  refine ⟨by have := Run.length_le hs; omega, Run.run_progress hinv hw1 hq, ?_, ?_⟩
  · intro e' hpc
    have hp := hinv.pcinv
    simp only [Run.PcInv, hpc] at hp
    obtain ⟨_, _, hout, _⟩ := hp
    cases e' with
    | none =>
      exfalso
      have hperm := (hinv.all_received hout.1 hout.2).1
      have hmem : result cfg.solve cfg.queue[i] ∈ s.core.received :=
        hperm.symm.subset (List.mem_map_of_mem _ (List.getElem_mem hi))
      have := hout.1.2.1 _ hmem
      simp [result, hfail] at this
    | some e' =>
      rcases hout with ⟨hc, _⟩ | ⟨r, hr, he⟩ | ⟨pre, r, _, _, he⟩
      · simp [Run.run_reach_nocancel hnc hs] at hc
      · obtain ⟨x, hx, rfl⟩ := hinv.received_mem hr
        obtain ⟨j, hj, rfl⟩ := List.getElem_of_mem hx
        by_cases hji : j = i
        · subst hji
          simp only [result] at he
          rw [hfail] at he
          exact he.symm ▸ rfl
        · simp [result, hothers j hj hji] at he
      · simp [hcollect] at he
  · rintro ⟨r, hr, he⟩ ms t ht
    have hst : s.pc.stopped = true := by
      have hp := hinv.pcinv
      cases hpc : s.pc with
      | prime =>
        simp only [Run.PcInv, hpc] at hp
        simp [hp.2.1] at hr
      | select =>
        simp only [Run.PcInv, hpc] at hp
        exact absurd (hp.1.2.1 r hr) he
      | refill u =>
        simp only [Run.PcInv, hpc] at hp
        exact absurd (hp.1.2.1 r hr) he
      | join e => rfl
      | ret e => rfl
    exact (Run.run_stopped_exec hst ht).2.2.2.1

/-- Witness of C2 on TestRunWithError: queue 1..3, `n = 2`, `solve` fails on the item at
position 1 with error 20; the call returns that error after dispatching all three items. -/
theorem run_single_failure_witness :
    ∃ s, exec (Run.step testRunWithError) (Run.init testRunWithError) testRunWithErrorSchedule
        = some s ∧ s.pc = Pc.ret (some 20) ∧ s.collected = [1] := by
  obtain ⟨s, hs, hpc, hcol⟩ : ∃ s, exec (Run.step testRunWithError) (Run.init testRunWithError)
      testRunWithErrorSchedule = some s ∧ s.pc = Pc.ret (some 20) ∧ s.collected = [1] :=
    ⟨_, rfl, rfl, rfl⟩
  have h := run_single_failure testRunWithError (by decide) 1 20 (by decide) (by decide)
    (by decide) (by simp [testRunWithError]) testRunWithErrorSchedule s (by decide) hs
  exact ⟨s, hs, h.2.2.1 _ hpc ▸ hpc, hcol⟩

/-- C3 as stated fails: in `testRunWithError` the context is cancelled before any result
is collected, while the failed result of item 2 waits in `outputCh`; the `select` may take
the result, and `Run` then returns the worker's error 20 and not `ctx.Err()` (99). In
`testRun` the context is cancelled before the last result is collected; the `select` may
take the result, `collect` is called once more, and `Run` returns nil. -/
theorem cancel_not_preferred :
    (exec (Run.step testRunWithError) (Run.init testRunWithError)
        (cancelThenRecvSchedule.take 7)).map
        (fun s => (s.pc, s.core.cancelled, s.core.outputCh, s.collected))
      = some (Pc.select, true, [⟨0, some 20⟩], []) ∧
    (exec (Run.step testRunWithError) (Run.init testRunWithError) cancelThenRecvSchedule).map
        (fun s => (s.pc, s.core.cancelled)) = some (Pc.ret (some 20), true) ∧
    testRunWithError.ctxErr = 99 ∧
    (exec (Run.step testRun) (Run.init testRun) (cancelThenFinishSchedule.take 21)).map
        (fun s => (s.pc, s.core.cancelled, s.collected)) = some (Pc.select, true, [2, 4, 6, 8]) ∧
    (exec (Run.step testRun) (Run.init testRun) cancelThenFinishSchedule).map
        (fun s => (s.pc, s.core.cancelled, s.collected))
      = some (Pc.ret none, true, [2, 4, 6, 8, 10]) := by
  refine ⟨?_, ?_, ?_, ?_, ?_⟩ <;> rfl

/-- C3, amended: in every reachable state of `Run` and of `RunFunc` where the control loop
is at its `select` and the context is cancelled, the cancellation case can be taken, also
when results (successful or failed) are ready; once it is taken the call hands nothing more
to `collect`, dispatches nothing more, and returns `ctx.Err()` after its workers have
exited. The cancellation case is the only control action possible when no result is ready;
when one is ready the receive case can be taken as well. -/
theorem cancel_branch (cfg : Run.Cfg I R E) (fcfg : RunFunc.Cfg I R E) :
    (∀ ls s, exec (Run.step cfg) (Run.init cfg) ls = some s → s.pc = Pc.select →
      s.core.cancelled = true →
      (∃ t, Run.step cfg s Label.selDone = some t ∧ t.collected = s.collected ∧
        t.core.dispatched = s.core.dispatched ∧ Run.Settles cfg t (some cfg.ctxErr)) ∧
      (s.core.outputCh = [] → Run.step cfg s Label.prime = none ∧
        Run.step cfg s Label.selRecv = none ∧ Run.step cfg s Label.refill = none ∧
        Run.step cfg s Label.join = none) ∧
      (s.core.outputCh ≠ [] → (Run.step cfg s Label.selRecv).isSome = true)) ∧
    (∀ ls s, exec (RunFunc.step fcfg) (RunFunc.init fcfg) ls = some s → s.pc = Pc.select →
      s.core.cancelled = true →
      (∃ t, RunFunc.step fcfg s Label.selDone = some t ∧ t.collected = s.collected ∧
        t.core.dispatched = s.core.dispatched ∧ t.calls = s.calls ∧
        RunFunc.Settles fcfg t (some fcfg.ctxErr)) ∧
      (s.core.outputCh = [] → RunFunc.step fcfg s Label.prime = none ∧
        RunFunc.step fcfg s Label.selRecv = none ∧ RunFunc.step fcfg s Label.refill = none ∧
        RunFunc.step fcfg s Label.join = none) ∧
      (s.core.outputCh ≠ [] → (RunFunc.step fcfg s Label.selRecv).isSome = true)) := by
  constructor
  · intro ls s hs hpc hcan
    have hinv := Run.Inv.run_reach hs
    have hstep : Run.step cfg s Label.selDone = some (s.leave (some cfg.ctxErr)) := by
      simp [Run.step, Run.selDone, hpc, hcan]
    refine ⟨⟨_, hstep, rfl, rfl, Run.run_settles (hinv.run_step hstep) rfl⟩, ?_, ?_⟩
    · intro ho
      simp [Run.step, Run.prime, Run.selRecv, Run.refill, Run.join, hpc, Core.recv, ho]
    · intro ho
      obtain ⟨r, rest, hr⟩ := List.exists_cons_of_ne_nil ho
      simp only [Run.step, Run.selRecv, hpc, Core.recv, hr]
      repeat' split
      all_goals simp
  · intro ls s hs hpc hcan
    have hinv := RunFunc.Inv.func_reach hs
    have hstep : RunFunc.step fcfg s Label.selDone = some (s.leave (some fcfg.ctxErr)) := by
      simp [RunFunc.step, RunFunc.selDone, hpc, hcan]
    refine ⟨⟨_, hstep, rfl, rfl, rfl, RunFunc.func_settles (hinv.func_step hstep) rfl⟩, ?_, ?_⟩
    · intro ho
      simp [RunFunc.step, RunFunc.prime, RunFunc.selRecv, RunFunc.refill, RunFunc.join, hpc,
        Core.recv, ho]
    · intro ho
      obtain ⟨r, rest, hr⟩ := List.exists_cons_of_ne_nil ho
      simp only [RunFunc.step, RunFunc.selRecv, hpc, Core.recv, hr]
      repeat' split
      all_goals simp

/-- Witness of the amended C3 on `testRunWithError`: with the context cancelled and the
failed result of item 2 waiting, taking the cancellation case makes `Run` return
`ctx.Err()` (99). -/
theorem cancel_branch_witness :
    ∃ s t, exec (Run.step testRunWithError) (Run.init testRunWithError)
        (cancelThenRecvSchedule.take 7) = some s ∧ s.core.outputCh = [⟨0, some 20⟩] ∧
      Run.step testRunWithError s Label.selDone = some t ∧
      Run.Settles testRunWithError t (some 99) := by
  obtain ⟨s, hs, hpc, hcan, hout⟩ : ∃ s, exec (Run.step testRunWithError)
      (Run.init testRunWithError) (cancelThenRecvSchedule.take 7) = some s ∧
      s.pc = Pc.select ∧ s.core.cancelled = true ∧ s.core.outputCh = [⟨0, some 20⟩] :=
    ⟨_, rfl, rfl, rfl, rfl⟩
  obtain ⟨⟨t, ht, _, _, hset⟩, _, _⟩ :=
    (cancel_branch testRunWithError testRunFuncCollectError).1 _ s hs hpc hcan
  exact ⟨s, t, hs, hout, ht, hset⟩

/-- C7: in every reachable state of `Run` and of `RunFunc` where the control loop is at its
`select` having received `k - 1` results (all successful and all accepted by `collect`, as
the loop is still running), if the `k`-th result received comes from a successful `solve`
call and `collect` fails on it with `e`, then after that iteration `collect` has been
invoked exactly `k` times, nothing more is collected or dispatched (nor fetched), and the
call returns exactly `e` after its workers have exited. -/
theorem collect_failure (cfg : Run.Cfg I R E) (fcfg : RunFunc.Cfg I R E) (k : Nat) (e : E) :
    (∀ ls s r rest, exec (Run.step cfg) (Run.init cfg) ls = some s → s.pc = Pc.select →
      s.core.outputCh = r :: rest → s.core.received.length + 1 = k → r.err = none →
      cfg.collect s.collected r.val = some e →
      (∀ q ∈ s.core.received, q.err = none) ∧ s.collected = s.core.received.map output.val ∧
      ∃ t, Run.step cfg s Label.selRecv = some t ∧ t.collected = s.collected ++ [r.val] ∧
        t.collected.length = k ∧ t.core.dispatched = s.core.dispatched ∧
        Run.Settles cfg t (some e)) ∧
    (∀ ls s r rest, exec (RunFunc.step fcfg) (RunFunc.init fcfg) ls = some s →
      s.pc = Pc.select → s.core.outputCh = r :: rest → s.core.received.length + 1 = k →
      r.err = none → fcfg.collect s.collected r.val = some e →
      (∀ q ∈ s.core.received, q.err = none) ∧ s.collected = s.core.received.map output.val ∧
      ∃ t, RunFunc.step fcfg s Label.selRecv = some t ∧ t.collected = s.collected ++ [r.val] ∧
        t.collected.length = k ∧ t.core.dispatched = s.core.dispatched ∧ t.calls = s.calls ∧
        RunFunc.Settles fcfg t (some e)) := by
  constructor
  · intro ls s r rest hs hpc hout hk he hcoll
    have hinv := Run.Inv.run_reach hs
    have hp := hinv.pcinv
    simp only [Run.PcInv, hpc] at hp
    obtain ⟨⟨hc1, hc2, hc3⟩, _⟩ := hp
    have hstep : Run.step cfg s Label.selRecv = some (Run.State.leave
        { s with core := { s.core with outputCh := rest, received := s.core.received ++ [r] },
                 collected := s.collected ++ [r.val] } (some e)) := by
      simp [Run.step, Run.selRecv, hpc, Core.recv, hout, he, hcoll]
    refine ⟨hc2, hc1, _, hstep, rfl, ?_, rfl, Run.run_settles (hinv.run_step hstep) rfl⟩
    show (s.collected ++ [r.val]).length = k
    rw [hc1]
    simp
    omega
  · intro ls s r rest hs hpc hout hk he hcoll
    have hinv := RunFunc.Inv.func_reach hs
    have hp := hinv.pcinv
    simp only [RunFunc.PcInv, hpc] at hp
    obtain ⟨⟨hc1, hc2, hc3⟩, _⟩ := hp
    have hstep : RunFunc.step fcfg s Label.selRecv = some (RunFunc.State.leave
        { s with core := { s.core with outputCh := rest, received := s.core.received ++ [r] },
                 collected := s.collected ++ [r.val] } (some e)) := by
      simp [RunFunc.step, RunFunc.selRecv, hpc, Core.recv, hout, he, hcoll]
    refine ⟨hc2, hc1, _, hstep, rfl, ?_, rfl, rfl, RunFunc.func_settles (hinv.func_step hstep) rfl⟩
    show (s.collected ++ [r.val]).length = k
    rw [hc1]
    simp
    omega

/-- Witness of C7 on TestRunWithCollectError and TestRunFunc_CollectError: `collect` fails
on the second (first) result received; the call settles on that error (7). -/
theorem collect_failure_witness :
    (∃ s t, exec (Run.step testRunWithCollectError) (Run.init testRunWithCollectError)
        collectErrorSchedule = some s ∧
      Run.step testRunWithCollectError s Label.selRecv = some t ∧ t.collected = [1, 2] ∧
      Run.Settles testRunWithCollectError t (some 7)) ∧
    (∃ s t, exec (RunFunc.step testRunFuncCollectError) (RunFunc.init testRunFuncCollectError)
        funcCollectErrorSchedule = some s ∧
      RunFunc.step testRunFuncCollectError s Label.selRecv = some t ∧ t.collected = [4] ∧
      RunFunc.Settles testRunFuncCollectError t (some 7)) := by
  constructor
  · obtain ⟨s, hs, hpc, hout, hrec, hcol⟩ : ∃ s, exec (Run.step testRunWithCollectError)
        (Run.init testRunWithCollectError) collectErrorSchedule = some s ∧
        s.pc = Pc.select ∧ s.core.outputCh = [⟨2, none⟩] ∧ s.core.received.length + 1 = 2 ∧
        s.collected = [1] :=
      ⟨_, rfl, rfl, rfl, rfl, rfl⟩
    obtain ⟨_, _, t, ht, htc, _, _, hset⟩ :=
      (collect_failure testRunWithCollectError testRunFuncCollectError 2 7).1 _ s ⟨2, none⟩ []
        hs hpc hout hrec rfl (by rw [hcol]; rfl)
    exact ⟨s, t, hs, ht, by rw [htc, hcol]; rfl, hset⟩
  · obtain ⟨s, hs, hpc, hout, hrec, hcol⟩ : ∃ s, exec (RunFunc.step testRunFuncCollectError)
        (RunFunc.init testRunFuncCollectError) funcCollectErrorSchedule = some s ∧
        s.pc = Pc.select ∧ s.core.outputCh = [⟨4, none⟩] ∧ s.core.received.length + 1 = 1 ∧
        s.collected = [] :=
      ⟨_, rfl, rfl, rfl, rfl, rfl⟩
    obtain ⟨_, _, t, ht, htc, _, _, _, hset⟩ :=
      (collect_failure testRunWithCollectError testRunFuncCollectError 1 7).2 _ s ⟨4, none⟩ []
        hs hpc hout hrec rfl (by rw [hcol]; rfl)
    exact ⟨s, t, hs, ht, by rw [htc, hcol]; rfl, hset⟩

/-- C4: in every reachable state of `Run`, with `n >= 1` and a queue of length `L`,
`index - complete <= min(n, L - complete)` (and `complete <= index <= L`), the same with
the numbers of items actually sent and results actually received, and at most `n` `solve`
calls are in flight; in every reachable state of `RunFunc`, for every `fetch`,
`count - complete <= n`, likewise for the items sent and results received, and at most `n`
`solve` calls are in flight; and when `fetch` feeds a queue of length `L`, also
`count - complete <= min(n, L - complete)`. -/
theorem in_flight_bound (cfg : Run.Cfg I R E) (fcfg : RunFunc.Cfg I R E)
    (hn : 1 ≤ cfg.n) (hfn : 1 ≤ fcfg.n) :
    (∀ ls s, exec (Run.step cfg) (Run.init cfg) ls = some s →
      s.complete ≤ s.index ∧ s.index ≤ cfg.queue.length ∧
      s.index - s.complete ≤ min cfg.n.toNat (cfg.queue.length - s.complete) ∧
      s.core.dispatched.length = s.index ∧ s.complete ≤ s.core.received.length ∧
      s.core.received.length ≤ s.core.dispatched.length ∧
      s.core.dispatched.length - s.core.received.length
        ≤ min cfg.n.toNat (cfg.queue.length - s.core.received.length) ∧
      s.core.busy.length ≤ min cfg.n.toNat (s.core.dispatched.length - s.core.received.length)) ∧
    (∀ ls s, exec (RunFunc.step fcfg) (RunFunc.init fcfg) ls = some s →
      s.complete ≤ s.count ∧ s.count - s.complete ≤ fcfg.n.toNat ∧
      s.core.dispatched.length ≤ s.count ∧ s.complete ≤ s.core.received.length ∧
      s.core.received.length ≤ s.core.dispatched.length ∧
      s.core.dispatched.length - s.core.received.length ≤ fcfg.n.toNat ∧
      s.core.busy.length ≤ min fcfg.n.toNat (s.core.dispatched.length - s.core.received.length)) ∧
    (Feeds cfg fcfg → ∀ ls s, exec (RunFunc.step fcfg) (RunFunc.init fcfg) ls = some s →
      s.count ≤ cfg.queue.length ∧
      s.count - s.complete ≤ min cfg.n.toNat (cfg.queue.length - s.complete) ∧
      s.core.dispatched.length - s.core.received.length
        ≤ min cfg.n.toNat (cfg.queue.length - s.core.received.length)) := by
  obtain ⟨hw, _⟩ := Run.run_workers_of_pos hn
  obtain ⟨hfw, _⟩ := RunFunc.func_workers_of_pos hfn
  refine ⟨?_, ?_, ?_⟩
  · intro ls s hs
    have hinv := Run.Inv.run_reach hs
    have hcnt := hinv.core.count
    have hbound := hinv.core.bound
    have hpool := hinv.core.pool
    have hidx := hinv.idx
    have hle := hinv.index_le
    obtain ⟨h1, h2⟩ := hinv.run_window
    rw [hw] at h1 hbound hpool
    refine ⟨by omega, hle, ?_, hidx.symm, h2, by omega, ?_, ?_⟩
    · exact le_min (by omega) (by omega)
    · exact le_min (by omega) (by omega)
    · exact le_min (by omega) (by omega)
  · intro ls s hs
    have hinv := RunFunc.Inv.func_reach hs
    have hcnt := hinv.core.count
    have hbound := hinv.core.bound
    have hpool := hinv.core.pool
    obtain ⟨h1, h2, h3⟩ := hinv.func_window
    rw [hfw] at h1 hbound hpool
    refine ⟨by omega, by omega, h3, h2, by omega, by omega, ?_⟩
    exact le_min (by omega) (by omega)
  · intro hfeed ls t ht
    obtain ⟨s, hs, hrel⟩ := sim_reach hfeed ht
    have hinv := RunFunc.Inv.func_reach ht
    obtain ⟨h1, h2, h3⟩ := hinv.func_window
    have hbound := hinv.core.bound
    have hwk := hfeed.workers
    rw [hwk, hw] at h1 hbound
    have hL := hrel.2.1
    exact ⟨hL, le_min (by omega) (by omega), le_min (by omega) (by omega)⟩

/-- Witness of C4: TestRun and TestRunFunc fed from the same slice, each at the end of a
schedule of 24 steps. -/
theorem in_flight_bound_witness :
    (∃ s, exec (Run.step testRun) (Run.init testRun) testRunSchedule = some s ∧
      s.index - s.complete ≤ min 2 (5 - s.complete)) ∧
    (∃ t, exec (RunFunc.step testRunViaFetch) (RunFunc.init testRunViaFetch) testRunSchedule
        = some t ∧ t.count - t.complete ≤ min 2 (5 - t.complete)) := by
  have h := in_flight_bound testRun testRunViaFetch (by decide) (by decide)
  constructor
  · obtain ⟨s, hs⟩ : ∃ s, exec (Run.step testRun) (Run.init testRun) testRunSchedule = some s :=
      ⟨_, rfl⟩
    exact ⟨s, hs, (h.1 _ s hs).2.2.1⟩
  · obtain ⟨t, ht⟩ : ∃ t, exec (RunFunc.step testRunViaFetch) (RunFunc.init testRunViaFetch)
        testRunSchedule = some t := ⟨_, rfl⟩
    exact ⟨t, ht, (h.2.2 (feeds_viaFetch testRun) _ t ht).2.1⟩

/-- C8: for every queue, `n`, `solve`, `collect`, cancellation behaviour and completion
order, a `RunFunc` call whose `fetch` yields the queue's items once each, in order, and
then keeps reporting exhaustion behaves as the `Run` call on that queue: under every
schedule the two calls are enabled or blocked together and reach the same view, hence the
same returned error (or nil), the same sequence of dispatched items and the same sequence
of values handed to `collect`. -/
theorem fetch_adapter_equiv (cfg : Run.Cfg I R E) (fcfg : RunFunc.Cfg I R E)
    (hfeed : Feeds cfg fcfg) (ls : List Label) :
    (exec (RunFunc.step fcfg) (RunFunc.init fcfg) ls).map RunFunc.view
      = (exec (Run.step cfg) (Run.init cfg) ls).map Run.view := by
  have h := sim_exec hfeed ls (Run.init cfg) (RunFunc.init fcfg) (Run.Inv.run_init cfg)
    (SimRel.at_start hfeed)
  cases hs : exec (Run.step cfg) (Run.init cfg) ls with
  | none =>
    cases ht : exec (RunFunc.step fcfg) (RunFunc.init fcfg) ls with
    | none => rfl
    | some t => simp [hs, ht, SimOut] at h
  | some s =>
    cases ht : exec (RunFunc.step fcfg) (RunFunc.init fcfg) ls with
    | none => simp [hs, ht, SimOut] at h
    | some t =>
      simp only [hs, ht, SimOut] at h
      simp [h.1]

/-- Witness of C8: TestRunFunc_Success against TestRun (queue 1..5 through the slice
adapter): under the out-of-order schedule both return nil having dispatched 1..5 and
collected 4, 2, 6, 8, 10. -/
theorem fetch_adapter_equiv_witness :
    (exec (RunFunc.step testRunViaFetch) (RunFunc.init testRunViaFetch) testRunSchedule).map
        RunFunc.view
      = (exec (Run.step testRun) (Run.init testRun) testRunSchedule).map Run.view ∧
    (exec (Run.step testRun) (Run.init testRun) testRunSchedule).map
        (fun s => (s.pc, s.core.dispatched, s.collected))
      = some (Pc.ret none, [1, 2, 3, 4, 5], [4, 2, 6, 8, 10]) :=
  ⟨fetch_adapter_equiv testRun testRunViaFetch (feeds_viaFetch testRun) testRunSchedule, rfl⟩

/-- C10: in every reachable state of `Run` and of `RunFunc`, whatever the outcome: the
inputs buffered, the inputs being solved and the results buffered are together at most `n`,
so every busy worker can complete its send on `outputCh` (capacity `n`); the function has
returned only if all `n` workers have exited; and once the closure has returned `e` (for
any reason) the call settles: within a bounded number of steps, with some worker or the
wait able to proceed at each, it returns `e`. -/
theorem workers_joined (cfg : Run.Cfg I R E) (fcfg : RunFunc.Cfg I R E) :
    (∀ ls s, exec (Run.step cfg) (Run.init cfg) ls = some s →
      s.core.inputCh.length + s.core.busy.length + s.core.outputCh.length ≤ cfg.workers ∧
      (∀ j, j < s.core.busy.length → (Run.step cfg s (Label.finish j)).isSome = true) ∧
      (∀ e, s.pc = Pc.ret e → s.core.exited = cfg.workers ∧ s.core.idle = 0 ∧ s.core.busy = []) ∧
      (∀ e, s.pc = Pc.join e → Run.Settles cfg s e)) ∧
    (∀ ls s, exec (RunFunc.step fcfg) (RunFunc.init fcfg) ls = some s →
      s.core.inputCh.length + s.core.busy.length + s.core.outputCh.length ≤ fcfg.workers ∧
      (∀ j, j < s.core.busy.length → (RunFunc.step fcfg s (Label.finish j)).isSome = true) ∧
      (∀ e, s.pc = Pc.ret e →
        s.core.exited = fcfg.workers ∧ s.core.idle = 0 ∧ s.core.busy = []) ∧
      (∀ e, s.pc = Pc.join e → RunFunc.Settles fcfg s e)) := by
  constructor
  · intro ls s hs
    have hinv := Run.Inv.run_reach hs
    have hcnt := hinv.core.count
    have hbound := hinv.core.bound
    have hpool := hinv.core.pool
    refine ⟨by omega, ?_, ?_, ?_⟩
    · intro j hj
      have hroom := hinv.core.room_output (List.ne_nil_of_length_pos (by omega))
      simp [Run.step, Core.envStep, Core.finish, List.getElem?_eq_getElem hj, hroom]
    · intro e hpc
      have hp := hinv.pcinv
      simp only [Run.PcInv, hpc] at hp
      exact ⟨hp.2.1, by omega, List.length_eq_zero.mp (by omega)⟩
    · intro e hpc
      exact Run.run_settles hinv (by rw [hpc]; rfl)
  · intro ls s hs
    have hinv := RunFunc.Inv.func_reach hs
    have hcnt := hinv.core.count
    have hbound := hinv.core.bound
    have hpool := hinv.core.pool
    refine ⟨by omega, ?_, ?_, ?_⟩
    · intro j hj
      have hroom := hinv.core.room_output (List.ne_nil_of_length_pos (by omega))
      simp [RunFunc.step, Core.envStep, Core.finish, List.getElem?_eq_getElem hj, hroom]
    · intro e hpc
      have hp := hinv.pcinv
      simp only [RunFunc.PcInv, hpc] at hp
      exact ⟨hp.2.1, by omega, List.length_eq_zero.mp (by omega)⟩
    · intro e hpc
      exact RunFunc.func_settles hinv (by rw [hpc]; rfl)

/-- Witness of C10 on `testRunWithError`: the closure has returned the failure 20 while one
worker is still solving item 1; that worker can send, and the call settles on 20. -/
theorem workers_joined_witness :
    ∃ s, exec (Run.step testRunWithError) (Run.init testRunWithError) errorPendingSchedule
        = some s ∧ s.core.busy = [1] ∧
      (Run.step testRunWithError s (Label.finish 0)).isSome = true ∧
      Run.Settles testRunWithError s (some 20) := by
  obtain ⟨s, hs, hb, hpc⟩ : ∃ s, exec (Run.step testRunWithError) (Run.init testRunWithError)
      errorPendingSchedule = some s ∧ s.core.busy = [1] ∧ s.pc = Pc.join (some 20) :=
    ⟨_, rfl, rfl, rfl⟩
  obtain ⟨_, h2, _, h4⟩ := (workers_joined testRunWithError testRunFuncCollectError).1 _ s hs
  exact ⟨s, hs, hb, h2 0 (by rw [hb]; decide), h4 _ hpc⟩

/-- C9 fails on the code: after `fetch` has reported exhaustion (third call) with two
items dispatched, the next received result makes `RunFunc` call `fetch` a fourth time,
because `fetched` only guards the return and not the call. With a `fetch` that then fails,
`RunFunc` returns that error (5) with one result collected instead of succeeding once both
are collected; with a `fetch` that then yields 7, `RunFunc` dispatches 7. -/
theorem fetch_called_after_exhaustion :
    (exec (RunFunc.step fetchErrorAfterExhaustion) (RunFunc.init fetchErrorAfterExhaustion)
        (afterExhaustionSchedule.take 3)).map
        (fun t => (t.pc, t.fetched, t.calls, t.core.dispatched))
      = some (Pc.select, true, 3, [1, 2]) ∧
    (exec (RunFunc.step fetchErrorAfterExhaustion) (RunFunc.init fetchErrorAfterExhaustion)
        afterExhaustionSchedule).map (fun t => (t.pc, t.fetched, t.calls, t.collected))
      = some (Pc.join (some 5), true, 4, [1]) ∧
    (exec (RunFunc.step fetchErrorAfterExhaustion) (RunFunc.init fetchErrorAfterExhaustion)
        (afterExhaustionSchedule ++ [.take, .finish 0, .exit, .exit, .exit, .join])).map
        (fun t => (t.pc, t.calls, t.collected)) = some (Pc.ret (some 5), 4, [1]) ∧
    (exec (RunFunc.step fetchItemAfterExhaustion) (RunFunc.init fetchItemAfterExhaustion)
        (afterExhaustionSchedule ++ [.refill])).map
        (fun t => (t.pc, t.fetched, t.calls, t.core.dispatched))
      = some (Pc.select, true, 4, [1, 2, 7]) := by
  refine ⟨?_, ?_, ?_, ?_⟩ <;> rfl

/-- C5 fails on the code: with no item at all, and a context that is never cancelled,
neither function returns. `Run` on the empty queue, and `RunFunc` with a `fetch` whose
first call reports exhaustion, leave their first loop and then wait at the `select`
forever: every schedule without `cancel` has at most one step, never reaches a return,
collects and dispatches nothing, and at the `select` no step other than `cancel` is
enabled (the test `complete >= len(queue)`, resp. `fetched && complete >= count`, sits
behind the receive from `outputCh`). -/
theorem empty_source_blocks (cfg : Run.Cfg I R E) (fcfg : RunFunc.Cfg I R E)
    (hq : cfg.queue = []) (hf : (fcfg.fetch 0).ok = false ∧ (fcfg.fetch 0).err = none) :
    (∀ ls s, NoCancel ls → exec (Run.step cfg) (Run.init cfg) ls = some s →
      ls.length ≤ 1 ∧ s.pc.stopped = false ∧ s.collected = [] ∧ s.core.dispatched = [] ∧
      (s.pc = Pc.select → ∀ l, l ≠ Label.cancel → Run.step cfg s l = none)) ∧
    (∀ ls s, NoCancel ls → exec (RunFunc.step fcfg) (RunFunc.init fcfg) ls = some s →
      ls.length ≤ 1 ∧ s.pc.stopped = false ∧ s.collected = [] ∧ s.core.dispatched = [] ∧
      (s.pc = Pc.select → ∀ l, l ≠ Label.cancel → RunFunc.step fcfg s l = none)) := by
  constructor
  · intro ls s hnc hs
    have hall : ∀ l ∈ ls, l ≠ Label.cancel := fun l hl hEq => hnc (hEq ▸ hl)
    have hinit : Run.Parked cfg (Run.init cfg) := ⟨rfl, rfl, rfl, Or.inl rfl⟩
    have hp : Run.Parked cfg s :=
      exec_induct (Run.Parked cfg) (fun l => l ≠ Label.cancel)
        (fun _ _ _ hp hl hs => (run_parked_step hq hp hl hs).2.1) ls _ _ hinit hall hs
    have hlen := exec_length_le (fun u : Run.State I R E => parkedSteps u.pc) (Run.Parked cfg)
      (fun l => l ≠ Label.cancel) (fun _ _ _ hp hl hs => (run_parked_step hq hp hl hs).2.1)
      (fun u l v hp hl hs => by
        obtain ⟨h1, _, h3⟩ := run_parked_step hq hp hl hs
        simp [h1, h3, parkedSteps]) ls _ _ hinit hall hs
    have h0 : parkedSteps (Run.init cfg).pc = 1 := rfl
    simp only [h0] at hlen
    refine ⟨by omega, ?_, hp.2.2.1, by rw [hp.1]; rfl, ?_⟩
    · rcases hp.2.2.2 with h | h <;> rw [h] <;> rfl
    · intro hpc l hl
      cases hstep : Run.step cfg s l with
      | none => rfl
      | some t =>
        have := (run_parked_step hq hp hl hstep).1
        rw [hpc] at this
        cases this
  · intro ls s hnc hs
    have hall : ∀ l ∈ ls, l ≠ Label.cancel := fun l hl hEq => hnc (hEq ▸ hl)
    have hinit : RunFunc.Parked fcfg (RunFunc.init fcfg) := ⟨rfl, rfl, Or.inl ⟨rfl, rfl, rfl⟩⟩
    have hp : RunFunc.Parked fcfg s :=
      exec_induct (RunFunc.Parked fcfg) (fun l => l ≠ Label.cancel)
        (fun _ _ _ hp hl hs => (func_parked_step hf hp hl hs).2.1) ls _ _ hinit hall hs
    have hlen := exec_length_le (fun u : RunFunc.State I R E => parkedSteps u.pc)
      (RunFunc.Parked fcfg) (fun l => l ≠ Label.cancel)
      (fun _ _ _ hp hl hs => (func_parked_step hf hp hl hs).2.1)
      (fun u l v hp hl hs => by
        obtain ⟨h1, _, h3⟩ := func_parked_step hf hp hl hs
        simp [h1, h3, parkedSteps]) ls _ _ hinit hall hs
    have h0 : parkedSteps (RunFunc.init fcfg).pc = 1 := rfl
    simp only [h0] at hlen
    refine ⟨by omega, ?_, hp.2.1, by rw [hp.1]; rfl, ?_⟩
    · rcases hp.2.2 with h | h <;> rw [h.1] <;> rfl
    · intro hpc l hl
      cases hstep : RunFunc.step fcfg s l with
      | none => rfl
      | some t =>
        have := (func_parked_step hf hp hl hstep).1
        rw [hpc] at this
        cases this

/-- The failing input of C5, evaluated: `Run` on the empty queue and `RunFunc` on an
exhausted `fetch`, one goroutine each, are at the `select` after one step, have returned
nothing, and nothing but a cancellation can happen. -/
theorem empty_source_blocks_witness :
    (∃ s, exec (Run.step emptyRun) (Run.init emptyRun) [Label.prime] = some s ∧
      s.pc = Pc.select ∧ ∀ l, l ≠ Label.cancel → Run.step emptyRun s l = none) ∧
    (∃ t, exec (RunFunc.step emptyRunFunc) (RunFunc.init emptyRunFunc) [Label.prime] = some t ∧
      t.pc = Pc.select ∧ ∀ l, l ≠ Label.cancel → RunFunc.step emptyRunFunc t l = none) := by
  have h := empty_source_blocks emptyRun emptyRunFunc rfl ⟨rfl, rfl⟩
  constructor
  · obtain ⟨s, hs, hpc⟩ : ∃ s, exec (Run.step emptyRun) (Run.init emptyRun) [Label.prime]
        = some s ∧ s.pc = Pc.select := ⟨_, rfl, rfl⟩
    exact ⟨s, hs, hpc, (h.1 _ s (by decide) hs).2.2.2.2 hpc⟩
  · obtain ⟨t, ht, hpc⟩ : ∃ t, exec (RunFunc.step emptyRunFunc) (RunFunc.init emptyRunFunc)
        [Label.prime] = some t ∧ t.pc = Pc.select := ⟨_, rfl, rfl⟩
    exact ⟨t, ht, hpc, (h.2 _ t (by decide) ht).2.2.2.2 hpc⟩

/-- C6: for every `k >= 0` and `n >= 1`, if `fetch` yields an item on each of its first `k`
calls and fails with `e` on the next, `solve` and `collect` succeed on those items and the
context is never cancelled, then under every completion order `RunFunc` returns exactly
`e` with exactly `k` items dispatched (the fetched ones, in order) and `fetch` called
exactly `k + 1` times: each schedule without `cancel` has at most `4 * k + n + 4` steps, a
call that has not returned can always take a step, and a call that has returned did so
with these values. -/
theorem fetch_failure (cfg : RunFunc.Cfg I R E) (hn : 1 ≤ cfg.n) (k : Nat) (e : E)
    (hitems : ∀ j, j < k → (cfg.fetch j).ok = true ∧ (cfg.fetch j).err = none)
    (hfail : (cfg.fetch k).err = some e)
    (hsolve : ∀ j, j < k → (cfg.solve (cfg.fetch j).item).2 = none)
    (hcollect : ∀ pre j, j < k → cfg.collect pre (cfg.solve (cfg.fetch j).item).1 = none)
    (ls : List Label) (s : RunFunc.State I R E) (hnc : NoCancel ls)
    (hs : exec (RunFunc.step cfg) (RunFunc.init cfg) ls = some s) :
    ls.length ≤ 4 * k + cfg.n.toNat + 4 ∧
    (s.pc.isRet = false → ∃ l, l ≠ Label.cancel ∧ (RunFunc.step cfg s l).isSome = true) ∧
    (∀ r, s.pc = Pc.ret r → r = some e ∧ s.core.dispatched.length = k ∧ s.calls = k + 1 ∧
      s.core.dispatched = (List.range k).map (fun j => (cfg.fetch j).item)) := by
  obtain ⟨hw, hw1⟩ := RunFunc.func_workers_of_pos hn
  have hall : ∀ l ∈ ls, l ≠ Label.cancel := fun l hl hEq => hnc (hEq ▸ hl)
  have hstepP : ∀ (u : RunFunc.State I R E) (l : Label) (v : RunFunc.State I R E),
      RunFunc.Inv cfg u ∧ RunFunc.FailsAt cfg k e u → l ≠ Label.cancel →
      RunFunc.step cfg u l = some v → RunFunc.Inv cfg v ∧ RunFunc.FailsAt cfg k e v :=
    fun u l v hu hl hstep =>
      ⟨hu.1.func_step hstep, failsAt_step hitems hfail hsolve hcollect hu.1 hu.2 hl hstep⟩
  have hinit : RunFunc.Inv cfg (RunFunc.init cfg) ∧ RunFunc.FailsAt cfg k e (RunFunc.init cfg) :=
    ⟨RunFunc.Inv.func_init cfg, failsAt_init cfg k e⟩
  obtain ⟨hinv, hfa⟩ := exec_induct
    (fun u => RunFunc.Inv cfg u ∧ RunFunc.FailsAt cfg k e u) (fun l => l ≠ Label.cancel)
    hstepP ls _ _ hinit hall hs
  have hlen := exec_length_le (RunFunc.potential k)
    (fun u => RunFunc.Inv cfg u ∧ RunFunc.FailsAt cfg k e u) (fun l => l ≠ Label.cancel)
    hstepP
    (fun u l v hu hl hstep =>
      RunFunc.func_potential_step hstep (Or.inl (hstepP u l v hu hl hstep).2.2.2.1))
    ls _ _ hinit hall hs
  have hpot : RunFunc.potential k (RunFunc.init cfg) = 4 * k + cfg.workers + 4 := by
    simp [RunFunc.potential, RunFunc.init, Core.init, Core.weight, Pc.weight]
    omega
  obtain ⟨_, hdisp, _, hpcf⟩ := hfa
  refine ⟨by omega, ?_, ?_⟩
  · refine RunFunc.func_progress hinv hw1 ?_
    intro hpc
    have hp := hinv.pcinv
    simp only [RunFunc.PcInv, hpc] at hp
    simp only [hpc] at hpcf
    have := hp.2.2.2.2 hpcf.2
    omega
  · intro r hpc
    simp only [hpc] at hpcf
    obtain ⟨h1, h2, h3⟩ := hpcf
    refine ⟨h1, h3, h2, ?_⟩
    rw [h3] at hdisp
    exact hdisp

/-- Witness of C6 on TestRunFunc_FetchLateError (`k = 3`, `n = 3`): the failure of the
fourth `fetch` call (5) is returned after exactly the three items 1, 2, 3 were dispatched;
and on a `fetch` that fails at once (`k = 0`) the error is returned during priming with
nothing dispatched. -/
theorem fetch_failure_witness :
    (∃ s, exec (RunFunc.step testFetchLateError) (RunFunc.init testFetchLateError)
        fetchLateErrorSchedule = some s ∧ s.pc = Pc.ret (some 5) ∧
      s.core.dispatched = [1, 2, 3] ∧ s.calls = 4) ∧
    (∃ s, exec (RunFunc.step { testFetchLateError with fetch := fun _ => ⟨0, false, some 5⟩ })
        (RunFunc.init { testFetchLateError with fetch := fun _ => ⟨0, false, some 5⟩ })
        [.prime, .exit, .exit, .exit, .join] = some s ∧ s.pc = Pc.ret (some 5) ∧
      s.core.dispatched = [] ∧ s.calls = 1) := by
  constructor
  · obtain ⟨s, hs, hpc⟩ : ∃ s, exec (RunFunc.step testFetchLateError)
        (RunFunc.init testFetchLateError) fetchLateErrorSchedule = some s ∧
        s.pc = Pc.ret (some 5) := ⟨_, rfl, rfl⟩
    have h := fetch_failure testFetchLateError (by decide) 3 5
      (by intro j hj; simp [testFetchLateError, hj]) rfl (by intro j _; rfl)
      (by intro _ j _; rfl) fetchLateErrorSchedule s (by decide) hs
    obtain ⟨_, _, h3, h4⟩ := h.2.2 _ hpc
    exact ⟨s, hs, hpc, h4, h3⟩
  · obtain ⟨s, hs, hpc⟩ : ∃ s,
        exec (RunFunc.step { testFetchLateError with fetch := fun _ => ⟨0, false, some 5⟩ })
        (RunFunc.init { testFetchLateError with fetch := fun _ => ⟨0, false, some 5⟩ })
        [.prime, .exit, .exit, .exit, .join] = some s ∧ s.pc = Pc.ret (some 5) :=
      ⟨_, rfl, rfl⟩
    have h := fetch_failure { testFetchLateError with fetch := fun _ => ⟨0, false, some 5⟩ }
      (by decide) 0 5 (by intro j hj; omega) rfl (by intro j hj; omega)
      (by intro _ j hj; omega) _ s (by decide) hs
    obtain ⟨_, _, h3, h4⟩ := h.2.2 _ hpc
    exact ⟨s, hs, hpc, h4, h3⟩

end Claims

end Corun
